import Mathlib

/-!
# Verification of the `jsonpatch` diff engine

Shallow embedding of the Go package `jsonpatch` (file `jsonpatch.go`).
Parsed JSON values (`map[string]interface{}` / `[]interface{}` /
`json.Number` / `string` / `bool` / `nil` as produced by a `UseNumber`
decoder) are embedded as the inductive `JValue`; Go maps are embedded as
association lists with distinct keys, their (nondeterministic) iteration
order standing for the list order.  Byte buffers are embedded as `String`.
The external JSON decoder (`goccy/go-json`, not part of the repository)
is abstracted as a `Decoders` record; a concrete executable instance
`jsonDecoders` is provided for evaluating the functions on closed inputs.

Functions of the source that recurse through `JValue` are embedded with
an explicit fuel argument (structural recursion on the fuel) so that
closed evaluation is kernel-reducible; public wrappers pass a fuel that
vastly exceeds the recursion depth of any input handled here, and
running out of fuel is a distinguished outcome that no theorem below
depends on.
-/

namespace Jsonpatch

/-- A parsed JSON value as produced by a `UseNumber` decoder: Go's
`nil`, `bool`, `json.Number` (text-preserving), `string`,
`[]interface{}` and `map[string]interface{}`. -/
inductive JValue where
  | null
  | bool (b : Bool)
  | num (text : String)
  | str (s : String)
  | arr (elems : List JValue)
  | obj (entries : List (String × JValue))

/-- A Go `map[string]interface{}`: association list, distinct keys. -/
abbrev JObj := List (String × JValue)

/-- Fuel bound used by the recursion wrappers; far larger than the
recursion depth of any document considered in this development. -/
def bigFuel : Nat := 1000000

/-- Key lookup in an embedded Go map (`m[key]` with the `ok` form). -/
def lookupKey (m : JObj) (k : String) : Option JValue :=
  match m with
  | [] => none
  | (k', v) :: rest => if k' = k then some v else lookupKey rest k

/-- Minimal JSON string escaping used by the serializer (the claims under
verification never depend on escaping of exotic characters). -/
def escapeChar (c : Char) : List Char :=
  if c = '"' then ['\\', '"']
  else if c = '\\' then ['\\', '\\']
  else [c]

/-- Quote a JSON string. -/
def quoteString (s : String) : String :=
  ⟨'"' :: (s.data.flatMap escapeChar) ++ ['"']⟩

/-- Serialization of a `JValue`, fuelled.  Mirrors `json.Marshal` on the
decoded value: numbers print their preserved text, object keys are
emitted in sorted order (Go marshals map keys sorted). -/
def serializeF : Nat → JValue → String
  | 0, _ => ""
  | _ + 1, .null => "null"
  | _ + 1, .bool b => if b then "true" else "false"
  | _ + 1, .num t => t
  | _ + 1, .str s => quoteString s
  | n + 1, .arr xs =>
      "[" ++ String.intercalate "," (xs.map (serializeF n)) ++ "]"
  | n + 1, .obj kvs =>
      let sorted := List.insertionSort (fun a b => a.1 ≤ b.1) kvs
      "\x7b" ++ String.intercalate ","
        (sorted.map (fun kv => quoteString kv.1 ++ ":" ++ serializeF n kv.2)) ++ "\x7d"

/-- Serialization of a `JValue`. -/
def serializeJValue (v : JValue) : String := serializeF bigFuel v

/-- `hashValue` of the source: the JSON representation as a string key. -/
def hashValue (v : JValue) : String := serializeJValue v

/-- The `Value` field of an `Operation`: Go `interface{}` holding either
`nil`, a raw message (`json.RawMessage`, root-array path) or a decoded
value. -/
inductive OpVal where
  | none
  | raw (s : String)
  | val (v : JValue)

/-- The `Operation` struct (fields `Operation`, `Path`, `Value`). -/
structure Operation where
  op : String
  path : String
  value : OpVal

/-- `NewPatch` of the source. -/
def NewPatch (operation path : String) (value : OpVal) : Operation :=
  ⟨operation, path, value⟩

/-- Serialization of an operation's `Value` field: `nil` marshals to
`null`, a `json.RawMessage` marshals as its own bytes. -/
def serializeOpVal : OpVal → String
  | .none => "null"
  | .raw s => s
  | .val v => serializeJValue v

/-- Whether an `OpVal` is Go's nil interface. -/
def OpVal.isNil : OpVal → Bool
  | .none => true
  | _ => false

/-- The part of `MarshalJSON`'s output before any `value` field:
`{"op":"<op>","path":"<path>"`. -/
def opPathPrefix (j : Operation) : String :=
  "\x7b" ++ "\"op\":\"" ++ j.op ++ "\"" ++ ",\"path\":\"" ++ j.path ++ "\""

/-- `MarshalJSON` of the source: emits `op` and `path`, and a `value`
field exactly when the value is non-nil or the operation is `replace` or
`add`.  (The Go function's error return only arises from marshalling the
value, which is total here.) -/
def MarshalJSON (j : Operation) : String :=
  opPathPrefix j ++
    (if j.value.isNil = false ∨ j.op = "replace" ∨ j.op = "add"
      then ",\"value\":" ++ serializeOpVal j.value
      else "") ++ "\x7d"

/-- `rfc6901Encoder`: `~` ⟶ `~0`, `/` ⟶ `~1`, characterwise. -/
def rfc6901EncodeChar (c : Char) : List Char :=
  if c = '~' then ['~', '0']
  else if c = '/' then ['~', '1']
  else [c]

/-- RFC-6901 token encoding of a key. -/
def rfc6901Encode (s : String) : String := ⟨s.data.flatMap rfc6901EncodeChar⟩

/-- `strings.HasSuffix(path, "/")`, on the character list. -/
def endsWithSlash (path : String) : Bool := path.data.getLast? == some '/'

/-- `makePath` for a string key (`case string` of the source's switch). -/
def makePathKey (path : String) (key : String) : String :=
  let k := rfc6901Encode key
  if path = "" then "/" ++ k
  else if endsWithSlash path then path ++ k
  else path ++ "/" ++ k

/-- `makePath` for an integer index (`case int` of the source's switch:
`strconv.Itoa`, no escaping). -/
def makePathIdx (path : String) (i : Nat) : String :=
  let k := toString i
  if path = "" then "/" ++ k
  else if endsWithSlash path then path ++ k
  else path ++ "/" ++ k

/-- `matchesValue` of the source, fuelled.  Type-strict deep equality;
in the object case a key of `at` missing from `bt` reads as Go's `nil`
interface, i.e. JSON null. -/
def matchesValueF : Nat → JValue → JValue → Bool
  | 0, _, _ => false
  | _ + 1, .str s, bv => match bv with | .str t => t == s | _ => false
  | _ + 1, .num s, bv => match bv with | .num t => t == s | _ => false
  | _ + 1, .bool b, bv => match bv with | .bool c => c == b | _ => false
  | n + 1, .obj at_, bv =>
      match bv with
      | .obj bt =>
          at_.length == bt.length &&
          at_.all (fun kv => matchesValueF n kv.2 ((lookupKey bt kv.1).getD .null))
      | _ => false
  | n + 1, .arr at_, bv =>
      match bv with
      | .arr bt =>
          bt.length == at_.length &&
          (at_.zip bt).all (fun pr => matchesValueF n pr.1 pr.2)
      | _ => false
  | _ + 1, .null, bv => match bv with | .null => true | _ => false

/-- `matchesValue` of the source. -/
def matchesValue (av bv : JValue) : Bool := matchesValueF bigFuel av bv

/-- `sameType` of the source: same underlying variant. -/
def sameType : JValue → JValue → Bool
  | .str _, b => match b with | .str _ => true | _ => false
  | .num _, b => match b with | .num _ => true | _ => false
  | .bool _, b => match b with | .bool _ => true | _ => false
  | .obj _, b => match b with | .obj _ => true | _ => false
  | .arr _, b => match b with | .arr _ => true | _ => false
  | .null, b => match b with | .null => true | _ => false

/-- `jsonType` of the source: first byte that is not one of
`' '`, `'\t'`, `'\n'`, `'\r'`; `0` when none. -/
def jsonTypeChars : List Char → Char
  | [] => Char.ofNat 0
  | c :: rest =>
      if c = ' ' ∨ c = '\t' ∨ c = '\n' ∨ c = '\r' then jsonTypeChars rest else c

/-- `jsonType` on a raw message. -/
def jsonType (data : String) : Char := jsonTypeChars data.data

/-- `sameRawType` of the source. -/
def sameRawType (a b : String) : Bool :=
  if a.length = 0 ∨ b.length = 0 then a.length == b.length
  else jsonType a == jsonType b

/-- `sortDescending` of the source (its in-place insertion sort computes
the descending insertion sort of the slice). -/
def sortDescending (s : List Nat) : List Nat :=
  List.insertionSort (fun a b => b ≤ a) s

/-- `sortAscending` of the source. -/
def sortAscending (s : List Nat) : List Nat :=
  List.insertionSort (fun a b => a ≤ b) s

/-! ## The hash-bucket array reconciler (`compareArray`) -/

/-- Append index `i` to the bucket of hash `h` (map insert preserves the
entry for an existing key and otherwise creates a new one; the assoc
list order stands for Go's map iteration order). -/
def upsertIdx (m : List (String × List Nat)) (h : String) (i : Nat) :
    List (String × List Nat) :=
  match m with
  | [] => [(h, [i])]
  | (h', is) :: rest =>
      if h' = h then (h', is ++ [i]) :: rest else (h', is) :: upsertIdx rest h i

/-- Bucket lookup. -/
def lookupIdx (m : List (String × List Nat)) (h : String) : Option (List Nat) :=
  match m with
  | [] => none
  | (h', is) :: rest => if h' = h then some is else lookupIdx rest h

/-- Build the hash → indices map of a slice, scanning left to right from
index `i`. -/
def buildMapGo (l : List JValue) (i : Nat) (acc : List (String × List Nat)) :
    List (String × List Nat) :=
  match l with
  | [] => acc
  | v :: vs => buildMapGo vs (i + 1) (upsertIdx acc (hashValue v) i)

/-- The hash → indices map of a slice (`bvMap` / `avMap` of the source). -/
def buildMap (l : List JValue) : List (String × List Nat) := buildMapGo l 0 []

/-- The unsorted removes of `compareArray`: for each bucket of `avMap`,
all indices when the hash is absent from `bvMap`, the tail
`indices[len(indices)-excess:]` when `av` has more occurrences. -/
def compareArrayRemoves (avMap bvMap : List (String × List Nat)) : List Nat :=
  avMap.flatMap (fun e =>
    match lookupIdx bvMap e.1 with
    | Option.none => e.2
    | some bIdxs =>
        if bIdxs.length < e.2.length then e.2.drop bIdxs.length else [])

/-- The unsorted adds of `compareArray` (dual of the removes). -/
def compareArrayAdds (avMap bvMap : List (String × List Nat)) : List Nat :=
  bvMap.flatMap (fun e =>
    match lookupIdx avMap e.1 with
    | Option.none => e.2
    | some aIdxs =>
        if aIdxs.length < e.2.length then e.2.drop aIdxs.length else [])

/-- `compareArray` of the source: duplicate-count-aware reconciliation,
removes sorted descending first, then adds sorted ascending carrying
`bv[idx]`. -/
def compareArray (av bv : List JValue) (p : String) : List Operation :=
  let bvMap := buildMap bv
  let avMap := buildMap av
  let removes := sortDescending (compareArrayRemoves avMap bvMap)
  let adds := sortAscending (compareArrayAdds avMap bvMap)
  removes.map (fun idx => NewPatch "remove" (makePathIdx p idx) .none) ++
    adds.map (fun idx => NewPatch "add" (makePathIdx p idx) (.val (bv.getD idx .null)))

/-! ## The recursive diff (`diff` / `handleValues`) -/

/-- Outcomes of the diff engine other than a patch.  `.parse` is a
decoder error (in Go: `return nil, err`), `.badMergeTypes` is
`errBadMergeTypes`, `.typeAssertionPanic` models the panic of the
unchecked type assertion `bv.(map[string]interface{})` in
`handleValues`, and `.outOfFuel` is the fuel-exhaustion artifact of this
embedding (never reached by the bounded inputs considered here). -/
inductive DiffError where
  | parse (msg : String)
  | badMergeTypes
  | typeAssertionPanic
  | outOfFuel

/-- The `remove` operations appended at the end of `diff` for the keys
of `a` absent from `b`, in `a`'s iteration order. -/
def removeOps (a b : JObj) (path : String) : List Operation :=
  (a.filter (fun kv => (lookupKey b kv.1).isNone)).map
    (fun kv => NewPatch "remove" (makePathKey path kv.1) .none)

mutual

/-- `diff` of the source, fuelled: process `b`'s entries, then append
the removes for deleted keys. -/
def diffF : Nat → JObj → JObj → String → List Operation →
    Except DiffError (List Operation)
  | 0, _, _, _, _ => .error .outOfFuel
  | n + 1, a, b, path, patch =>
      match diffBF n a b path patch with
      | .error e => .error e
      | .ok patch' => .ok (patch' ++ removeOps a b path)

/-- The `for key, bv := range b` loop of `diff`, iterating over the
remaining entries of `b`. -/
def diffBF : Nat → JObj → JObj → String → List Operation →
    Except DiffError (List Operation)
  | 0, _, _, _, _ => .error .outOfFuel
  | _ + 1, _, [], _, patch => .ok patch
  | n + 1, a, (key, bv) :: rest, path, patch =>
      let p := makePathKey path key
      match lookupKey a key with
      | Option.none => diffBF n a rest path (patch ++ [NewPatch "add" p (.val bv)])
      | some av =>
          if sameType av bv = false then
            diffBF n a rest path (patch ++ [NewPatch "replace" p (.val bv)])
          else
            match handleValuesF n av bv p patch with
            | .error e => .error e
            | .ok patch' => diffBF n a rest path patch'

/-- `handleValues` of the source, fuelled.  The `map` case performs the
unchecked type assertion on `bv`; the `default: panic` branch of the Go
switch has no counterpart because the `JValue` match is exhaustive. -/
def handleValuesF : Nat → JValue → JValue → String → List Operation →
    Except DiffError (List Operation)
  | 0, _, _, _, _ => .error .outOfFuel
  | n + 1, .obj at_, bv, p, patch =>
      match bv with
      | .obj bt => diffF n at_ bt p patch
      | _ => .error .typeAssertionPanic
  | _ + 1, .str s, bv, p, patch =>
      .ok (if matchesValue (.str s) bv = false
            then patch ++ [NewPatch "replace" p (.val bv)] else patch)
  | _ + 1, .num t, bv, p, patch =>
      .ok (if matchesValue (.num t) bv = false
            then patch ++ [NewPatch "replace" p (.val bv)] else patch)
  | _ + 1, .bool b, bv, p, patch =>
      .ok (if matchesValue (.bool b) bv = false
            then patch ++ [NewPatch "replace" p (.val bv)] else patch)
  | n + 1, .arr at_, bv, p, patch =>
      match bv with
      | .arr bt =>
          if at_.length ≠ bt.length then .ok (patch ++ compareArray at_ bt p)
          else handleArrF n at_ bt p 0 patch
      | _ => .ok (patch ++ [NewPatch "replace" p (.val bv)])
  | _ + 1, .null, bv, p, patch =>
      match bv with
      | .null => .ok patch
      | _ => .ok (patch ++ [NewPatch "add" p (.val bv)])

/-- The index-aligned recursion of `handleValues` over two equal-length
arrays (`for i := range bt`). -/
def handleArrF : Nat → List JValue → List JValue → String → Nat →
    List Operation → Except DiffError (List Operation)
  | 0, _, _, _, _, _ => .error .outOfFuel
  | n + 1, at_, bt, p, i, patch =>
      match at_, bt with
      | av :: arest, bv :: brest =>
          match handleValuesF n av bv (makePathIdx p i) patch with
          | .error e => .error e
          | .ok patch' => handleArrF n arest brest p (i + 1) patch'
      | _, _ => .ok patch

end

/-! ## `CreatePatch` and the root-array path -/

/-- The external JSON decoder (`goccy/go-json`), abstracted:
`decodeRawArr` is `Decode` into `[]json.RawMessage`, `decodeObj` is
`Decode` into `map[string]interface{}` with `UseNumber`.  An `.error`
result of either models the Go decode error (`return nil, err`). -/
structure Decoders where
  decodeRawArr : String → Except String (List String)
  decodeObj : String → Except String JObj

/-- `diffObjects` of the source: decode both raw messages as objects and
run the recursive diff. -/
def diffObjects (d : Decoders) (a b : String) (key : String)
    (patch : List Operation) : Except DiffError (List Operation) :=
  match d.decodeObj a with
  | .error e => .error (.parse e)
  | .ok aI =>
      match d.decodeObj b with
      | .error e => .error (.parse e)
      | .ok bI => diffF bigFuel aI bI key patch

/-- Whitespace as trimmed by `bytes.TrimSpace` (ASCII subset; the
documents considered here contain no exotic whitespace). -/
def isSpaceChar (c : Char) : Bool :=
  c == ' ' || c == '\t' || c == '\n' || c == '\r'

/-- `bytes.TrimSpace`, on the character list. -/
def trimChars (l : List Char) : List Char :=
  ((l.dropWhile isSpaceChar).reverse.dropWhile isSpaceChar).reverse

/-- `resemblesJSONArray` of the source: outer syntax only. -/
def resemblesJSONArray (input : String) : Bool :=
  let t := trimChars input.data
  t.head? == some '[' && t.getLast? == some ']'

/-- One iteration of the ascending moving-window scan triggering
`diffAsc++` (with `length = len(modified)-1`). -/
def ascTrigger (original modified : List String) (length k : Nat) : Bool :=
  (decide (k < length) && (original.getD 0 "" == modified.getD k "")) ||
  (decide (0 < k) && (modified.getD length "" == original.getD k "")) ||
  (decide (k < length) && (original.getD (k + 1) "" != modified.getD k ""))

/-- `diffAsc == 0` after the ascending scan: no key triggers. -/
def ascWindow (original modified : List String) : Bool :=
  (List.range modified.length).all
    (fun k => !ascTrigger original modified (modified.length - 1) k)

/-- One iteration of the descending moving-window scan triggering
`diffDsc++`. -/
def dscTrigger (original modified : List String) (length k : Nat) : Bool :=
  (decide (k < length) && (modified.getD 0 "" == original.getD k "")) ||
  (decide (0 < k) && (original.getD length "" == modified.getD k "")) ||
  (decide (k < length) && (modified.getD (k + 1) "" != original.getD k ""))

/-- `diffDsc == 0` after the descending scan: no key triggers. -/
def dscWindow (original modified : List String) : Bool :=
  (List.range modified.length).all
    (fun k => !dscTrigger original modified (modified.length - 1) k)

/-- The `for key, bv := range modified` loop of the root-array path of
`CreatePatch`: new indices are added with the raw message as value,
shared indices of different raw type are replaced, shared indices of the
same raw type are compared by `diffObjects` with prefix `"/<key>/"`. -/
def rootPairsF (d : Decoders) (original : List String) :
    List (Nat × String) → List Operation → Except DiffError (List Operation)
  | [], patch => .ok patch
  | (key, bv) :: rest, patch =>
      let p := makePathIdx "" key
      match original.get? key with
      | Option.none => rootPairsF d original rest (patch ++ [NewPatch "add" p (.raw bv)])
      | some av =>
          if sameRawType av bv = false then
            rootPairsF d original rest (patch ++ [NewPatch "replace" p (.raw bv)])
          else
            match diffObjects d av bv ("/" ++ toString key ++ "/") patch with
            | .error e => .error e
            | .ok patch' => rootPairsF d original rest patch'

/-- Pair each element of a list with its index, starting at `i`. -/
def enumFrom (i : Nat) : List String → List (Nat × String)
  | [] => []
  | s :: rest => (i, s) :: enumFrom (i + 1) rest

/-- The root-array path after the moving-window fast paths: the keyed
loop over `modified`, then the removes for the indices of `original`
beyond `modified`'s length, sorted descending (Go collects them from map
iteration and sorts; the sort makes the order canonical). -/
def rootArrayGeneral (d : Decoders) (original modified : List String) :
    Except DiffError (List Operation) :=
  match rootPairsF d original (enumFrom 0 modified) [] with
  | .error e => .error e
  | .ok patch =>
      let removes := sortDescending
        ((List.range original.length).filter (fun k => decide (modified.length ≤ k)))
      .ok (patch ++ removes.map (fun key => NewPatch "remove" (makePathIdx "" key) .none))

/-- `CreatePatch` of the source.  `.error e` models Go's `return nil, err`. -/
def CreatePatch (d : Decoders) (a b : String) : Except DiffError (List Operation) :=
  if a = b then .ok []
  else
    let originalResemblesArray := resemblesJSONArray a
    let modifiedResemblesArray := resemblesJSONArray b
    if originalResemblesArray && modifiedResemblesArray then
      match d.decodeRawArr a with
      | .error e => .error (.parse e)
      | .ok original =>
          match d.decodeRawArr b with
          | .error e => .error (.parse e)
          | .ok modified =>
              if modified.length = original.length ∧ 2 < original.length then
                let length := modified.length - 1
                if ascWindow original modified then
                  .ok [NewPatch "remove" (makePathIdx "" 0) .none,
                       NewPatch "add" (makePathIdx "" length) (.raw (modified.getD length ""))]
                else if dscWindow original modified then
                  .ok [NewPatch "add" (makePathIdx "" 0) (.raw (modified.getD 0 "")),
                       NewPatch "remove" (makePathIdx "" (length + 1)) .none]
                else rootArrayGeneral d original modified
              else rootArrayGeneral d original modified
    else if originalResemblesArray = false ∧ modifiedResemblesArray = false then
      diffObjects d a b "" []
    else .error .badMergeTypes

/-! ## A concrete executable decoder

The JSON tokenizer is external to the repository (spec §1: parsing is a
non-goal, an external capability).  The following small parser provides
a concrete `Decoders` instance with the behaviour the source relies on:
`UseNumber` (number text preserved), one value read from the front of
the buffer, duplicate object keys overwriting, JSON `null` decoding into
a nil (empty) map, raw array elements captured as their exact source
text. -/

/-- Characters that may occur in a JSON number literal. -/
def isNumChar (c : Char) : Bool :=
  c.isDigit || c == '-' || c == '+' || c == '.' || c == 'e' || c == 'E'

/-- Drop leading JSON whitespace. -/
def skipWs (l : List Char) : List Char := l.dropWhile isSpaceChar

/-- Parse the body of a JSON string after the opening quote; returns the
unescaped characters and the input after the closing quote. -/
def parseStringBody : List Char → Option (List Char × List Char)
  | [] => none
  | '"' :: rest => some ([], rest)
  | '\\' :: c :: rest =>
      (parseStringBody rest).map (fun r =>
        ((if c = 'n' then '\n' else if c = 't' then '\t' else if c = 'r' then '\r' else c) :: r.1, r.2))
  | c :: rest => (parseStringBody rest).map (fun r => (c :: r.1, r.2))

/-- Insert with overwrite (Go map semantics for duplicate keys). -/
def objInsert (m : JObj) (k : String) (v : JValue) : JObj :=
  match m with
  | [] => [(k, v)]
  | (k', v') :: rest => if k' = k then (k, v) :: rest else (k', v') :: objInsert rest k v

mutual

/-- Parse one JSON value from the front of the input (fuelled). -/
def parseValueF : Nat → List Char → Option (JValue × List Char)
  | 0, _ => none
  | n + 1, l =>
      match skipWs l with
      | 'n' :: 'u' :: 'l' :: 'l' :: rest => some (.null, rest)
      | 't' :: 'r' :: 'u' :: 'e' :: rest => some (.bool true, rest)
      | 'f' :: 'a' :: 'l' :: 's' :: 'e' :: rest => some (.bool false, rest)
      | '"' :: rest =>
          (parseStringBody rest).map (fun r => (.str ⟨r.1⟩, r.2))
      | '[' :: rest =>
          (match skipWs rest with
            | ']' :: rest' => some (.arr [], rest')
            | _ => (parseArrF n rest).map (fun r => (.arr r.1, r.2)))
      | '{' :: rest =>
          (match skipWs rest with
            | '}' :: rest' => some (.obj [], rest')
            | _ => (parseObjF n rest).map (fun r => (.obj r.1, r.2)))
      | c :: rest =>
          if isNumChar c then
            some (.num ⟨c :: rest.takeWhile isNumChar⟩, rest.dropWhile isNumChar)
          else none
      | [] => none

/-- Parse the elements of a non-empty JSON array (after `[`). -/
def parseArrF : Nat → List Char → Option (List JValue × List Char)
  | 0, _ => none
  | n + 1, l =>
      match parseValueF n l with
      | Option.none => none
      | some (v, rest) =>
          match skipWs rest with
          | ',' :: rest' => (parseArrF n rest').map (fun r => (v :: r.1, r.2))
          | ']' :: rest' => some ([v], rest')
          | _ => none

/-- Parse the members of a non-empty JSON object (after `{`). -/
def parseObjF : Nat → List Char → Option (JObj × List Char)
  | 0, _ => none
  | n + 1, l =>
      match skipWs l with
      | '"' :: rest =>
          match parseStringBody rest with
          | Option.none => none
          | some (kchars, rest') =>
              match skipWs rest' with
              | ':' :: rest'' =>
                  match parseValueF n rest'' with
                  | Option.none => none
                  | some (v, rest3) =>
                      match skipWs rest3 with
                      | ',' :: rest4 =>
                          (parseObjF n rest4).map (fun r => (objInsert r.1 ⟨kchars⟩ v, r.2))
                      | '}' :: rest4 => some ([(⟨kchars⟩, v)], rest4)
                      | _ => none
              | _ => none
      | _ => none

end

/-- Parse one JSON value from a string (used to characterize malformed
buffers and to interpret raw-message operation values). -/
def jsonParse (s : String) : Option JValue :=
  (parseValueF (s.length + 1) s.data).map (fun r => r.1)

/-- Raw elements of a JSON array: each element is captured as its exact
source text (the `json.RawMessage` bytes). -/
def parseRawArrF : Nat → List Char → Option (List String × List Char)
  | 0, _ => none
  | n + 1, l =>
      let l1 := skipWs l
      match parseValueF n l1 with
      | Option.none => none
      | some (_, rest) =>
          let raw : String := ⟨l1.take (l1.length - rest.length)⟩
          match skipWs rest with
          | ',' :: rest' => (parseRawArrF n rest').map (fun r => (raw :: r.1, r.2))
          | ']' :: rest' => some ([raw], rest')
          | _ => none

/-- `Decode` into `[]json.RawMessage`: the first value of the buffer
must be an array (or null, giving a nil slice); trailing bytes are not
inspected. -/
def decodeRawArrImpl (s : String) : Except String (List String) :=
  match skipWs s.data with
  | '[' :: rest =>
      (match skipWs rest with
        | ']' :: _ => .ok []
        | _ =>
            match parseRawArrF (s.length + 1) rest with
            | some (elems, _) => .ok elems
            | Option.none => .error "invalid json input")
  | 'n' :: 'u' :: 'l' :: 'l' :: _ => .ok []
  | _ => .error "cannot unmarshal into a slice"

/-- `Decode` into `map[string]interface{}` with `UseNumber`: the first
value must be an object (or null, leaving the map nil); anything else is
a decode error; trailing bytes are not inspected. -/
def decodeObjImpl (s : String) : Except String JObj :=
  match jsonParse s with
  | some (.obj m) => .ok m
  | some .null => .ok []
  | some _ => .error "cannot unmarshal into a map"
  | Option.none => .error "invalid json input"

/-- The concrete decoder instance standing for `goccy/go-json`. -/
def jsonDecoders : Decoders :=
  { decodeRawArr := decodeRawArrImpl, decodeObj := decodeObjImpl }

/-! ## The Patch Executor (`Apply`)

The Patch Executor of this repository is not among the source files
under verification (only its callers and tests are), so it is modelled
from the spec, restricted to the three operation kinds the Diff Engine
ever produces (spec §3: only add/remove/replace). -/

/-- Split a pointer's reference-token section on `/`. -/
def splitSlash : List Char → List (List Char)
  | [] => [[]]
  | '/' :: rest => [] :: splitSlash rest
  | c :: rest =>
      match splitSlash rest with
      | [] => [[c]]
      | t :: ts => (c :: t) :: ts

/-- RFC-6901 token decoding: `~1` ⟶ `/`, then `~0` ⟶ `~`. -/
def decodeTokenChars : List Char → List Char
  | [] => []
  | '~' :: '1' :: rest => '/' :: decodeTokenChars rest
  | '~' :: '0' :: rest => '~' :: decodeTokenChars rest
  | c :: rest => c :: decodeTokenChars rest

/-- Modelled from the spec: pointer resolution (§4.3) — a pointer is
split on `/` after the leading empty segment and each token's escapes
are decoded; an empty overall path is not a valid add/remove/replace
target. -/
def pointerTokens (path : String) : Except String (List String) :=
  match path.data with
  | '/' :: rest => .ok ((splitSlash rest).map (fun t => ⟨decodeTokenChars t⟩))
  | _ => .error "bad path"

/-- Parse an array-index token: digits only (the end token `-` is
handled separately at add targets). -/
def tokenToNat? (t : String) : Option Nat :=
  if t.data ≠ [] ∧ t.data.all Char.isDigit then
    some (t.data.foldl (fun a c => a * 10 + (c.toNat - 48)) 0)
  else none

/-- Remove an object member; not-found when the key is absent. -/
def objRemove (m : JObj) (k : String) : Option JObj :=
  match m with
  | [] => none
  | (k', v') :: rest =>
      if k' = k then some rest
      else (objRemove rest k).map (fun r => (k', v') :: r)

/-- Insert into a list at position `i`, shifting the suffix right. -/
def listInsertAt (xs : List JValue) (i : Nat) (v : JValue) : List JValue :=
  match i, xs with
  | 0, xs => v :: xs
  | _ + 1, [] => [v]
  | i + 1, x :: rest => x :: listInsertAt rest i v

/-- Modelled from the spec: `add` (§4.3) — for objects, create or
overwrite the key; for arrays, the final token must be an index in
`[0, len]` or the end token `-`, inserting shifts subsequent elements
right; resolving through a missing container is not-found. -/
def addAt : JValue → List String → JValue → Except String JValue
  | doc, [], _ => .error ("bad path on " ++ serializeJValue doc)
  | .obj m, [t], v => .ok (.obj (objInsert m t v))
  | .arr xs, [t], v =>
      if t = "-" then .ok (.arr (xs ++ [v]))
      else
        match tokenToNat? t with
        | some i => if i ≤ xs.length then .ok (.arr (listInsertAt xs i v)) else .error "out of bounds"
        | Option.none => .error "bad array index"
  | .obj m, t :: rest, v =>
      match lookupKey m t with
      | some child =>
          match addAt child rest v with
          | .ok child' => .ok (.obj (objInsert m t child'))
          | .error e => .error e
      | Option.none => .error "not found"
  | .arr xs, t :: rest, v =>
      match tokenToNat? t with
      | some i =>
          match xs.get? i with
          | some child =>
              match addAt child rest v with
              | .ok child' => .ok (.arr (xs.set i child'))
              | .error e => .error e
          | Option.none => .error "out of bounds"
      | Option.none => .error "bad array index"
  | _, _ :: _, _ => .error "not found"

/-- Modelled from the spec: `remove` (§4.3) — deletes the value at the
path; a missing key is not-found, an index `>= len` out-of-bounds. -/
def removeAt : JValue → List String → Except String JValue
  | doc, [] => .error ("bad path on " ++ serializeJValue doc)
  | .obj m, [t] =>
      match objRemove m t with
      | some m' => .ok (.obj m')
      | Option.none => .error "not found"
  | .arr xs, [t] =>
      match tokenToNat? t with
      | some i => if i < xs.length then .ok (.arr (xs.eraseIdx i)) else .error "out of bounds"
      | Option.none => .error "bad array index"
  | .obj m, t :: rest =>
      match lookupKey m t with
      | some child =>
          match removeAt child rest with
          | .ok child' => .ok (.obj (objInsert m t child'))
          | .error e => .error e
      | Option.none => .error "not found"
  | .arr xs, t :: rest =>
      match tokenToNat? t with
      | some i =>
          match xs.get? i with
          | some child =>
              match removeAt child rest with
              | .ok child' => .ok (.arr (xs.set i child'))
              | .error e => .error e
          | Option.none => .error "out of bounds"
      | Option.none => .error "bad array index"
  | _, _ :: _ => .error "not found"

/-- Modelled from the spec: `replace` (§4.3) — overwrites the value at
the path, which must already exist. -/
def replaceAt : JValue → List String → JValue → Except String JValue
  | doc, [], _ => .error ("bad path on " ++ serializeJValue doc)
  | .obj m, [t], v =>
      match lookupKey m t with
      | some _ => .ok (.obj (objInsert m t v))
      | Option.none => .error "not found"
  | .arr xs, [t], v =>
      match tokenToNat? t with
      | some i => if i < xs.length then .ok (.arr (xs.set i v)) else .error "out of bounds"
      | Option.none => .error "bad array index"
  | .obj m, t :: rest, v =>
      match lookupKey m t with
      | some child =>
          match replaceAt child rest v with
          | .ok child' => .ok (.obj (objInsert m t child'))
          | .error e => .error e
      | Option.none => .error "not found"
  | .arr xs, t :: rest, v =>
      match tokenToNat? t with
      | some i =>
          match xs.get? i with
          | some child =>
              match replaceAt child rest v with
              | .ok child' => .ok (.arr (xs.set i child'))
              | .error e => .error e
          | Option.none => .error "out of bounds"
      | Option.none => .error "bad array index"
  | _, _ :: _, _ => .error "not found"

/-- An operation's value as a document value: a raw message is parsed,
Go nil reads as JSON null. -/
def opValValue : OpVal → Except String JValue
  | .none => .ok .null
  | .val v => .ok v
  | .raw s =>
      match jsonParse s with
      | some v => .ok v
      | Option.none => .error "invalid raw value"

/-- Modelled from the spec: apply a single operation to the working
tree. -/
def applyOp (doc : JValue) (op : Operation) : Except String JValue :=
  match pointerTokens op.path with
  | .error e => .error e
  | .ok tokens =>
      if op.op = "add" then
        match opValValue op.value with
        | .ok v => addAt doc tokens v
        | .error e => .error e
      else if op.op = "remove" then removeAt doc tokens
      else if op.op = "replace" then
        match opValValue op.value with
        | .ok v => replaceAt doc tokens v
        | .error e => .error e
      else .error "unsupported op"

/-- Modelled from the spec: `Apply` (§4.3) — operations are applied
strictly in list order against the current working tree; any failure
aborts the whole call. -/
def Apply (doc : JValue) : List Operation → Except String JValue
  | [] => .ok doc
  | op :: rest =>
      match applyOp doc op with
      | .ok doc' => Apply doc' rest
      | .error e => .error e

/-! ## Vocabulary used by the theorem statements -/

/-- The ascending positions `≥ i` at which an element of `l` (indexed
from `i`) has content hash `h`. -/
def hashPositionsFrom (h : String) : List JValue → Nat → List Nat
  | [], _ => []
  | v :: vs, i => (if hashValue v = h then [i] else []) ++ hashPositionsFrom h vs (i + 1)

/-- The ascending list of indices of `l` whose element has content hash
`h` (the source's bucket for `h`). -/
def hashPositions (l : List JValue) (h : String) : List Nat :=
  hashPositionsFrom h l 0

/-- Whether pointer `q` lies strictly below pointer `p` (that is, `q`
extends `p` by at least one `/`-separated token). -/
def strictUnder (p q : String) : Bool :=
  (p.data ++ ['/']).isPrefixOf q.data

/-- `q` addresses `p` itself or a location inside the subtree at `p`:
either `q = p`, or `q` continues `p` with a slash, or (for a prefix that
already ends in a slash, as produced for an empty key) `q` merely
continues `p`. -/
def PathUnder (p q : String) : Prop :=
  q = p ∨ (∃ r : List Char, q.data = p.data ++ '/' :: r) ∨
    (p.data.getLast? = some '/' ∧ ∃ r : List Char, q.data = p.data ++ r)

/-! # Theorems -/

/-- **C5**.  No-op diff is empty: for every document `D` — any byte
buffer, well-formed or not — `CreatePatch(D, D)` returns an empty
operation list and no error.  The statement quantifies over the decoder,
so the result holds whatever parsing would do: the input is not parsed. -/
theorem c5_noop_diff_empty (d : Decoders) (D : String) :
    CreatePatch d D D = .ok [] := by
  simp [CreatePatch]

/-- **C1** (failing input).  The round-trip law fails on the valid
matching-root-kind pair `A = {"a":["x","y","z"]}`, `B = {"a":["z","x"]}`:
`CreatePatch` succeeds with the single operation `remove /a/1`, but
applying that patch to `A` yields `{"a":["x","z"]}`, which is not
deep-equal to `B` (the Patch Executor is modelled from the spec). -/
theorem c1_round_trip_violated :
    CreatePatch jsonDecoders "\x7b\"a\":[\"x\",\"y\",\"z\"]\x7d" "\x7b\"a\":[\"z\",\"x\"]\x7d"
      = .ok [NewPatch "remove" "/a/1" .none] ∧
    jsonParse "\x7b\"a\":[\"x\",\"y\",\"z\"]\x7d"
      = some (.obj [("a", .arr [.str "x", .str "y", .str "z"])]) ∧
    jsonParse "\x7b\"a\":[\"z\",\"x\"]\x7d"
      = some (.obj [("a", .arr [.str "z", .str "x"])]) ∧
    Apply (.obj [("a", .arr [.str "x", .str "y", .str "z"])])
        [NewPatch "remove" "/a/1" .none]
      = .ok (.obj [("a", .arr [.str "x", .str "z"])]) ∧
    matchesValue (.obj [("a", .arr [.str "x", .str "z"])])
        (.obj [("a", .arr [.str "z", .str "x"])]) = false :=
  ⟨rfl, rfl, rfl, rfl, rfl⟩

/-- **C7** (failing input).  `CreatePatch` on the well-formed pair
`{"a":[{"x":1}]}` / `{"a":["s"]}` reaches the unchecked type assertion
`bv.(map[string]interface{})` in `handleValues` with a string value
(equal-length nested arrays recurse index-aligned without a type check)
and panics instead of returning normally. -/
theorem c7_panic_reachable :
    CreatePatch jsonDecoders "\x7b\"a\":[\x7b\"x\":1\x7d]\x7d" "\x7b\"a\":[\"s\"]\x7d"
      = .error .typeAssertionPanic :=
  rfl

/-- **C10**.  Root-level array inputs that are not byte-identical
compare shared same-raw-type indices by re-parsing both element buffers
as JSON objects, so well-formed pairs with non-object elements fail:
both `[1,2]` vs `[1,3]` and `[1, 2]` vs `[1,2]` (whitespace only) make
`CreatePatch` return a decode error instead of a patch. -/
theorem c10_root_scalar_arrays_error :
    CreatePatch jsonDecoders "[1,2]" "[1,3]"
      = .error (.parse "cannot unmarshal into a map") ∧
    CreatePatch jsonDecoders "[1, 2]" "[1,2]"
      = .error (.parse "cannot unmarshal into a map") :=
  ⟨rfl, rfl⟩

/-- **C8** (counterexample).  The buffer `x` is malformed JSON, yet
`CreatePatch("x", "x")` returns an empty patch and no error: the
byte-identical fast path precedes parsing, so a malformed buffer does
not always yield a parse error. -/
theorem c8_counterexample :
    jsonParse "x" = none ∧ CreatePatch jsonDecoders "x" "x" = .ok [] :=
  ⟨rfl, rfl⟩

/-- **C2** (counterexample).  For the equal-length root arrays
`[{"t":"1"},{"t":"1"},{"t":"1"}]` and `[{"t":"1"},{"t":"1"},{"t":"2"}]`
(length 3 > 2) the claim's premise holds — every element of
`modified[0..n-1]` equals `original[1..n]` — yet `CreatePatch` returns a
single `replace` at `/2/t`, not a remove-at-0/add-at-last pair: the
scan also requires `original[0]` not to occur in `modified[0..n-1]`. -/
theorem c2_counterexample :
    decodeRawArrImpl "[\x7b\"t\":\"1\"\x7d,\x7b\"t\":\"1\"\x7d,\x7b\"t\":\"1\"\x7d]"
      = .ok ["\x7b\"t\":\"1\"\x7d", "\x7b\"t\":\"1\"\x7d", "\x7b\"t\":\"1\"\x7d"] ∧
    decodeRawArrImpl "[\x7b\"t\":\"1\"\x7d,\x7b\"t\":\"1\"\x7d,\x7b\"t\":\"2\"\x7d]"
      = .ok ["\x7b\"t\":\"1\"\x7d", "\x7b\"t\":\"1\"\x7d", "\x7b\"t\":\"2\"\x7d"] ∧
    (∀ k, k < 2 →
      (["\x7b\"t\":\"1\"\x7d", "\x7b\"t\":\"1\"\x7d", "\x7b\"t\":\"2\"\x7d"] : List String).getD k ""
        = (["\x7b\"t\":\"1\"\x7d", "\x7b\"t\":\"1\"\x7d", "\x7b\"t\":\"1\"\x7d"] : List String).getD (k + 1) "") ∧
    CreatePatch jsonDecoders "[\x7b\"t\":\"1\"\x7d,\x7b\"t\":\"1\"\x7d,\x7b\"t\":\"1\"\x7d]"
        "[\x7b\"t\":\"1\"\x7d,\x7b\"t\":\"1\"\x7d,\x7b\"t\":\"2\"\x7d]"
      = .ok [NewPatch "replace" "/2/t" (.val (.str "2"))] :=
  ⟨rfl, rfl, by decide, rfl⟩

/-- **C2** (amended).  Ascending sliding-window detection as the scan
actually decides it: for equal-length root arrays longer than 2, if
every element of `modified[0..n-1]` equals `original[1..n]` and
moreover `original[0]` occurs nowhere in `modified[0..n-1]` and
`modified[n]` occurs nowhere in `original[1..n]`, then `CreatePatch`
returns exactly a `remove` at index 0 followed by an `add` at the last
index `n` carrying `modified[n]`. -/
theorem c2_asc_window_amended (d : Decoders) (a b : String)
    (hab : a ≠ b)
    (hra : resemblesJSONArray a = true) (hrb : resemblesJSONArray b = true)
    (original modified : List String)
    (hda : d.decodeRawArr a = .ok original)
    (hdb : d.decodeRawArr b = .ok modified)
    (hlen : modified.length = original.length)
    (hgt : 2 < original.length)
    (hwin : ∀ k, k < modified.length - 1 →
        modified.getD k "" = original.getD (k + 1) "")
    (hg1 : ∀ k, k < modified.length - 1 →
        original.getD 0 "" ≠ modified.getD k "")
    (hg2 : ∀ k, k < modified.length → 0 < k →
        modified.getD (modified.length - 1) "" ≠ original.getD k "") :
    CreatePatch d a b =
      .ok [NewPatch "remove" (makePathIdx "" 0) .none,
           NewPatch "add" (makePathIdx "" (modified.length - 1))
             (.raw (modified.getD (modified.length - 1) ""))] := by
  have hasc : ascWindow original modified = true := by
    unfold ascWindow
    rw [List.all_eq_true]
    intro k hk
    rw [List.mem_range] at hk
    unfold ascTrigger
    have h1 : (decide (k < modified.length - 1) &&
        (original.getD 0 "" == modified.getD k "")) = false := by
      by_cases hkl : k < modified.length - 1
      · rw [decide_eq_true hkl, Bool.true_and, beq_eq_false_iff_ne]
        exact hg1 k hkl
      · rw [decide_eq_false hkl, Bool.false_and]
    have h2 : (decide (0 < k) &&
        (modified.getD (modified.length - 1) "" == original.getD k "")) = false := by
      by_cases hk0 : 0 < k
      · rw [decide_eq_true hk0, Bool.true_and, beq_eq_false_iff_ne]
        exact hg2 k hk hk0
      · rw [decide_eq_false hk0, Bool.false_and]
    have h3 : (decide (k < modified.length - 1) &&
        (original.getD (k + 1) "" != modified.getD k "")) = false := by
      by_cases hkl : k < modified.length - 1
      · rw [decide_eq_true hkl, Bool.true_and, bne_eq_false_iff_eq]
        exact (hwin k hkl).symm
      · rw [decide_eq_false hkl, Bool.false_and]
    rw [h1, h2, h3]
    rfl
  unfold CreatePatch
  rw [if_neg hab]
  simp only [hra, hrb, Bool.and_self, if_true, hda, hdb]
  rw [if_pos ⟨hlen, hgt⟩, if_pos hasc]

/-- **C3** (counterexample).  For the root arrays `[3,2,1]` and
`[4,3,2]` the descending-window premise holds (every element of
`modified[1..n]` equals `original[0..n-1]`), and `CreatePatch` indeed
emits an `add` at index 0 and a single `remove` — but the remove is at
index `n+1 = 3`, not at the last index `n = 2` as the claim states (it
is applied after the add, which shifts every element right by one). -/
theorem c3_counterexample :
    decodeRawArrImpl "[3,2,1]" = .ok ["3", "2", "1"] ∧
    decodeRawArrImpl "[4,3,2]" = .ok ["4", "3", "2"] ∧
    (∀ k, k < 2 →
      (["4", "3", "2"] : List String).getD (k + 1) ""
        = (["3", "2", "1"] : List String).getD k "") ∧
    CreatePatch jsonDecoders "[3,2,1]" "[4,3,2]"
      = .ok [NewPatch "add" "/0" (.raw "4"), NewPatch "remove" "/3" .none] ∧
    (∀ op ∈ [NewPatch "add" "/0" (OpVal.raw "4"), NewPatch "remove" "/3" OpVal.none],
      op.path ≠ "/2") :=
  ⟨rfl, rfl, by decide, rfl, by decide⟩

/-- **C3** (amended).  Descending sliding-window detection as the scan
actually decides it: for equal-length root arrays longer than 2, if
every element of `modified[1..n]` equals `original[0..n-1]` and
moreover `modified[0]` occurs nowhere in `original[0..n-1]` and
`original[n]` occurs nowhere in `modified[1..n]`, then `CreatePatch`
returns exactly an `add` at index 0 carrying `modified[0]` followed by a
`remove` at index `n+1` (one past the last original index — valid
because the add is applied first and shifts the array right). -/
theorem c3_dsc_window_amended (d : Decoders) (a b : String)
    (hab : a ≠ b)
    (hra : resemblesJSONArray a = true) (hrb : resemblesJSONArray b = true)
    (original modified : List String)
    (hda : d.decodeRawArr a = .ok original)
    (hdb : d.decodeRawArr b = .ok modified)
    (hlen : modified.length = original.length)
    (hgt : 2 < original.length)
    (hwin : ∀ k, k < modified.length - 1 →
        modified.getD (k + 1) "" = original.getD k "")
    (hg1 : ∀ k, k < modified.length - 1 →
        modified.getD 0 "" ≠ original.getD k "")
    (hg2 : ∀ k, k < modified.length → 0 < k →
        original.getD (modified.length - 1) "" ≠ modified.getD k "") :
    CreatePatch d a b =
      .ok [NewPatch "add" (makePathIdx "" 0) (.raw (modified.getD 0 "")),
           NewPatch "remove" (makePathIdx "" ((modified.length - 1) + 1)) .none] := by
  have hlen3 : 2 < modified.length := by omega
  have hascF : ascWindow original modified = false := by
    rw [Bool.eq_false_iff]
    intro hasc
    rw [ascWindow, List.all_eq_true] at hasc
    have h0 := hasc 0 (by rw [List.mem_range]; omega)
    rw [ascTrigger, Bool.not_eq_eq_eq_not, Bool.not_true, Bool.or_eq_false_iff,
      Bool.or_eq_false_iff, Bool.and_eq_false_iff, Bool.and_eq_false_iff,
      Bool.and_eq_false_iff] at h0
    rcases h0.2 with h3 | h3
    · rw [decide_eq_false_iff_not] at h3; omega
    · rw [bne_eq_false_iff_eq] at h3
      exact hg1 1 (by omega) h3.symm
  have hdsc : dscWindow original modified = true := by
    unfold dscWindow
    rw [List.all_eq_true]
    intro k hk
    rw [List.mem_range] at hk
    unfold dscTrigger
    have h1 : (decide (k < modified.length - 1) &&
        (modified.getD 0 "" == original.getD k "")) = false := by
      by_cases hkl : k < modified.length - 1
      · rw [decide_eq_true hkl, Bool.true_and, beq_eq_false_iff_ne]
        exact hg1 k hkl
      · rw [decide_eq_false hkl, Bool.false_and]
    have h2 : (decide (0 < k) &&
        (original.getD (modified.length - 1) "" == modified.getD k "")) = false := by
      by_cases hk0 : 0 < k
      · rw [decide_eq_true hk0, Bool.true_and, beq_eq_false_iff_ne]
        exact hg2 k hk hk0
      · rw [decide_eq_false hk0, Bool.false_and]
    have h3 : (decide (k < modified.length - 1) &&
        (modified.getD (k + 1) "" != original.getD k "")) = false := by
      by_cases hkl : k < modified.length - 1
      · rw [decide_eq_true hkl, Bool.true_and, bne_eq_false_iff_eq]
        exact hwin k hkl
      · rw [decide_eq_false hkl, Bool.false_and]
    rw [h1, h2, h3]
    rfl
  unfold CreatePatch
  rw [if_neg hab]
  simp only [hra, hrb, Bool.and_self, if_true, hda, hdb]
  rw [if_pos ⟨hlen, hgt⟩, if_neg (by rw [hascF]; exact Bool.false_ne_true), if_pos hdsc]

/-- Witness for `c2_asc_window_amended`: the shifted pair `[10,20,30]` /
`[20,30,40]` yields exactly `remove /0` and `add /2` carrying `40`. -/
theorem c2_asc_window_witness :
    CreatePatch jsonDecoders "[10,20,30]" "[20,30,40]" =
      .ok [NewPatch "remove" (makePathIdx "" 0) .none,
           NewPatch "add"
             (makePathIdx "" ((["20", "30", "40"] : List String).length - 1))
             (.raw ((["20", "30", "40"] : List String).getD
               ((["20", "30", "40"] : List String).length - 1) ""))] :=
  c2_asc_window_amended jsonDecoders "[10,20,30]" "[20,30,40]" (by decide)
    rfl rfl ["10", "20", "30"] ["20", "30", "40"] rfl rfl rfl (by decide)
    (by decide) (by decide) (by decide)

/-- Witness for `c3_dsc_window_amended`: the shifted pair `[3,2,1]` /
`[4,3,2]` yields exactly `add /0` carrying `4` and `remove /3`. -/
theorem c3_dsc_window_witness :
    CreatePatch jsonDecoders "[3,2,1]" "[4,3,2]" =
      .ok [NewPatch "add" (makePathIdx "" 0)
             (.raw ((["4", "3", "2"] : List String).getD 0 "")),
           NewPatch "remove"
             (makePathIdx "" (((["4", "3", "2"] : List String).length - 1) + 1)) .none] :=
  c3_dsc_window_amended jsonDecoders "[3,2,1]" "[4,3,2]" (by decide)
    rfl rfl ["3", "2", "1"] ["4", "3", "2"] rfl rfl rfl (by decide)
    (by decide) (by decide) (by decide)

/-- **C9**.  The wire encoding of an operation contains a `value` field
exactly when the value is non-nil or the operation is `replace`/`add`;
for `replace`/`add` with a nil value the field is present as an explicit
`null`, so omitted-value and null-value operations stay distinguishable
after encoding. -/
theorem c9_marshal_value_field (j : Operation) :
    ((∃ rest, MarshalJSON j = opPathPrefix j ++ (",\"value\":" ++ rest)) ↔
      (j.value.isNil = false ∨ j.op = "replace" ∨ j.op = "add")) ∧
    ((j.op = "replace" ∨ j.op = "add") → j.value = OpVal.none →
      MarshalJSON j = opPathPrefix j ++ ",\"value\":null\x7d") := by
  constructor
  · constructor
    · rintro ⟨rest, hrest⟩
      by_contra hcond
      rw [MarshalJSON, if_neg hcond] at hrest
      have hlen := congrArg String.length hrest
      simp only [String.length_append] at hlen
      have h1 : ("" : String).length = 0 := rfl
      have h2 : ("\x7d" : String).length = 1 := rfl
      have h3 : (",\"value\":" : String).length = 9 := rfl
      omega
    · intro hcond
      refine ⟨serializeOpVal j.value ++ "\x7d", ?_⟩
      rw [MarshalJSON, if_pos hcond, String.append_assoc, String.append_assoc]
  · intro hop hval
    rw [MarshalJSON, if_pos (Or.inr hop), hval, String.append_assoc]
    have : ((",\"value\":" ++ serializeOpVal OpVal.none) ++ "\x7d" : String)
        = ",\"value\":null\x7d" := rfl
    rw [this]

/-- Witness for `c9_marshal_value_field`: a nil-value `replace` at `/a`
is encoded with an explicit `"value":null`. -/
theorem c9_marshal_value_field_witness :
    MarshalJSON ⟨"replace", "/a", OpVal.none⟩
      = opPathPrefix ⟨"replace", "/a", OpVal.none⟩ ++ ",\"value\":null\x7d" :=
  (c9_marshal_value_field ⟨"replace", "/a", OpVal.none⟩).2 (Or.inl rfl) rfl

/-- **C8** (amended).  For byte-distinct buffers whose array-resemblance
classification agrees, a decode failure of either buffer (as a raw array
when both resemble arrays, as an object otherwise) makes `CreatePatch`
return that parse error — Go's `return nil, err`, i.e. a nil operation
list alongside the error.  (Byte-identical buffers short-circuit to an
empty patch before parsing, and mismatched classifications yield the
type-mismatch error, also before parsing.) -/
theorem c8_parse_error_amended (d : Decoders) (a b : String) (hab : a ≠ b) :
    (resemblesJSONArray a = true → resemblesJSONArray b = true →
      (∀ e, d.decodeRawArr a = .error e → CreatePatch d a b = .error (.parse e)) ∧
      (∀ original e, d.decodeRawArr a = .ok original → d.decodeRawArr b = .error e →
        CreatePatch d a b = .error (.parse e))) ∧
    (resemblesJSONArray a = false → resemblesJSONArray b = false →
      (∀ e, d.decodeObj a = .error e → CreatePatch d a b = .error (.parse e)) ∧
      (∀ aI e, d.decodeObj a = .ok aI → d.decodeObj b = .error e →
        CreatePatch d a b = .error (.parse e))) := by
  constructor
  · intro hra hrb
    constructor
    · intro e he
      unfold CreatePatch
      rw [if_neg hab]
      simp only [hra, hrb, Bool.and_self, if_true, he]
    · intro original e hok herr
      unfold CreatePatch
      rw [if_neg hab]
      simp only [hra, hrb, Bool.and_self, if_true, hok, herr]
  · intro hra hrb
    constructor
    · intro e he
      unfold CreatePatch
      rw [if_neg hab]
      simp only [hra, hrb, Bool.and_self, Bool.false_and, if_false, and_self, if_true,
        diffObjects, he]
      rw [if_neg Bool.false_ne_true]
    · intro aI e hok herr
      unfold CreatePatch
      rw [if_neg hab]
      simp only [hra, hrb, Bool.and_self, Bool.false_and, if_false, and_self, if_true,
        diffObjects, hok, herr]
      rw [if_neg Bool.false_ne_true]

/-- Witness for `c8_parse_error_amended`: the byte-distinct pair
`[}]` / `[]` (both resembling arrays, the first malformed) yields the
decoder's parse error. -/
theorem c8_parse_error_amended_witness :
    CreatePatch jsonDecoders "[\x7d]" "[]" = .error (.parse "invalid json input") :=
  ((c8_parse_error_amended jsonDecoders "[\x7d]" "[]" (by decide)).1 rfl rfl).1
    "invalid json input" rfl

/-! ### The hash buckets of `compareArray` (towards C4) -/

theorem lookupIdx_upsertIdx (m : List (String × List Nat)) (h h' : String) (i : Nat) :
    lookupIdx (upsertIdx m h i) h' =
      if h' = h then some ((lookupIdx m h).getD [] ++ [i]) else lookupIdx m h' := by
  induction m with
  | nil =>
      simp only [upsertIdx, lookupIdx]
      by_cases hh : h = h'
      · rw [if_pos hh, if_pos hh.symm]
        rfl
      · rw [if_neg hh, if_neg (fun c => hh c.symm)]
  | cons e rest ih =>
      obtain ⟨k, is⟩ := e
      by_cases hk : k = h
      · subst hk
        simp only [upsertIdx, if_pos rfl, lookupIdx]
        by_cases hh : k = h'
        · rw [if_pos hh, if_pos hh.symm]
          simp
        · rw [if_neg hh, if_neg (fun c => hh c.symm), if_neg hh]
      · simp only [upsertIdx, if_neg hk, lookupIdx]
        by_cases hh : k = h'
        · subst hh
          rw [if_neg hk]
          simp
        · rw [if_neg hh, ih, if_neg hh]

theorem keys_upsertIdx (m : List (String × List Nat)) (h : String) (i : Nat) :
    (upsertIdx m h i).map Prod.fst =
      if h ∈ m.map Prod.fst then m.map Prod.fst else m.map Prod.fst ++ [h] := by
  induction m with
  | nil => simp [upsertIdx]
  | cons e rest ih =>
      obtain ⟨k, is⟩ := e
      by_cases hk : k = h
      · subst hk
        simp [upsertIdx]
      · simp only [upsertIdx, if_neg hk, List.map_cons, List.mem_cons, ih]
        by_cases hmem : h ∈ rest.map Prod.fst
        · simp [hmem, Ne.symm hk]
        · simp [hmem, Ne.symm hk]

theorem nodup_keys_upsertIdx (m : List (String × List Nat)) (h : String) (i : Nat)
    (hnd : (m.map Prod.fst).Nodup) : ((upsertIdx m h i).map Prod.fst).Nodup := by
  rw [keys_upsertIdx]
  by_cases hmem : h ∈ m.map Prod.fst
  · simpa [hmem]
  · rw [if_neg hmem]
    refine List.Nodup.append hnd (List.nodup_singleton h) ?_
    intro a ha hb
    rw [List.mem_singleton] at hb
    subst hb
    exact hmem ha

theorem lookupIdx_eq_none_of_not_mem (m : List (String × List Nat)) (h : String)
    (hmem : h ∉ m.map Prod.fst) : lookupIdx m h = none := by
  induction m with
  | nil => rfl
  | cons e rest ih =>
      obtain ⟨k, is⟩ := e
      simp only [List.map_cons, List.mem_cons] at hmem
      push_neg at hmem
      simp only [lookupIdx]
      rw [if_neg (fun hk : k = h => hmem.1 hk.symm)]
      exact ih hmem.2

theorem lookupIdx_eq_of_mem (m : List (String × List Nat)) (h : String) (is : List Nat)
    (hnd : (m.map Prod.fst).Nodup) (hm : (h, is) ∈ m) : lookupIdx m h = some is := by
  induction m with
  | nil => cases hm
  | cons e rest ih =>
      obtain ⟨k, ks⟩ := e
      simp only [List.map_cons, List.nodup_cons] at hnd
      rcases List.mem_cons.mp hm with heq | hrest
      · cases heq
        simp [lookupIdx]
      · have hk : k ≠ h := by
          intro hk
          subst hk
          exact hnd.1 (List.mem_map.mpr ⟨(k, is), hrest, rfl⟩)
        simp only [lookupIdx, if_neg hk]
        exact ih hnd.2 hrest

theorem buildMapGo_lookup (l : List JValue) :
    ∀ (i : Nat) (acc : List (String × List Nat)) (h : String),
    lookupIdx (buildMapGo l i acc) h =
      match lookupIdx acc h with
      | some is => some (is ++ hashPositionsFrom h l i)
      | Option.none =>
          if hashPositionsFrom h l i = [] then none
          else some (hashPositionsFrom h l i) := by
  induction l with
  | nil =>
      intro i acc h
      simp only [buildMapGo, hashPositionsFrom]
      cases lookupIdx acc h <;> simp
  | cons v vs ih =>
      intro i acc h
      simp only [buildMapGo, hashPositionsFrom]
      rw [ih (i + 1) (upsertIdx acc (hashValue v) i) h, lookupIdx_upsertIdx]
      by_cases hv : h = hashValue v
      · rw [if_pos hv, ← hv]
        cases hacc : lookupIdx acc h <;> simp [hacc, List.append_assoc]
      · have hv' : hashValue v ≠ h := fun hc => hv hc.symm
        rw [if_neg hv, if_neg hv']
        cases hacc : lookupIdx acc h <;> simp [hacc]

theorem buildMapGo_keys_nodup (l : List JValue) :
    ∀ (i : Nat) (acc : List (String × List Nat)),
    (acc.map Prod.fst).Nodup → ((buildMapGo l i acc).map Prod.fst).Nodup := by
  induction l with
  | nil => intro i acc hnd; exact hnd
  | cons v vs ih =>
      intro i acc hnd
      exact ih (i + 1) _ (nodup_keys_upsertIdx acc (hashValue v) i hnd)

theorem buildMap_keys_nodup (l : List JValue) : ((buildMap l).map Prod.fst).Nodup :=
  buildMapGo_keys_nodup l 0 [] List.nodup_nil

theorem buildMap_lookup (l : List JValue) (h : String) :
    lookupIdx (buildMap l) h =
      if hashPositions l h = [] then none else some (hashPositions l h) := by
  unfold buildMap hashPositions
  rw [buildMapGo_lookup l 0 [] h]
  rfl

theorem mem_buildMap_eq (l : List JValue) (h : String) (is : List Nat)
    (hm : (h, is) ∈ buildMap l) : is = hashPositions l h := by
  have hl := lookupIdx_eq_of_mem (buildMap l) h is (buildMap_keys_nodup l) hm
  rw [buildMap_lookup] at hl
  by_cases hp : hashPositions l h = []
  · rw [if_pos hp] at hl; cases hl
  · rw [if_neg hp] at hl
    exact (Option.some.injEq .. ▸ hl).symm

theorem mem_hashPositionsFrom (l : List JValue) :
    ∀ (i j : Nat) (h : String), j ∈ hashPositionsFrom h l i →
      i ≤ j ∧ j < i + l.length ∧ hashValue (l.getD (j - i) .null) = h := by
  induction l with
  | nil => intro i j h hj; cases hj
  | cons v vs ih =>
      intro i j h hj
      rw [hashPositionsFrom, List.mem_append] at hj
      rcases hj with hj | hj
      · by_cases hv : hashValue v = h
        · rw [if_pos hv, List.mem_singleton] at hj
          subst hj
          refine ⟨Nat.le_refl _, by simp, ?_⟩
          simp [hv]
        · rw [if_neg hv] at hj; cases hj
      · obtain ⟨h1, h2, h3⟩ := ih (i + 1) j h hj
        refine ⟨by omega, by simp; omega, ?_⟩
        have : j - i = (j - (i + 1)) + 1 := by omega
        rw [this, List.getD_cons_succ]
        exact h3

theorem mem_hashPositions (l : List JValue) (j : Nat) (h : String)
    (hj : j ∈ hashPositions l h) :
    j < l.length ∧ hashValue (l.getD j .null) = h := by
  obtain ⟨h1, h2, h3⟩ := mem_hashPositionsFrom l 0 j h hj
  exact ⟨by omega, by simpa using h3⟩

/-- The per-bucket contribution of the removes (and, transposed, the
adds) of `compareArray`. -/
def bucketExcess (other : List (String × List Nat)) (e : String × List Nat) :
    List Nat :=
  match lookupIdx other e.1 with
  | Option.none => e.2
  | some bIdxs => if bIdxs.length < e.2.length then e.2.drop bIdxs.length else []

theorem compareArrayRemoves_eq_flatMap (avMap bvMap : List (String × List Nat)) :
    compareArrayRemoves avMap bvMap = avMap.flatMap (bucketExcess bvMap) := rfl

theorem compareArrayAdds_eq (avMap bvMap : List (String × List Nat)) :
    compareArrayAdds avMap bvMap = compareArrayRemoves bvMap avMap := rfl

theorem mem_bucketExcess (other : List (String × List Nat)) (e : String × List Nat)
    (j : Nat) (hj : j ∈ bucketExcess other e) : j ∈ e.2 := by
  unfold bucketExcess at hj
  rcases hlk : lookupIdx other e.1 with _ | bIdxs <;> rw [hlk] at hj
  · exact hj
  · have hj' : j ∈ (if bIdxs.length < e.2.length
        then List.drop bIdxs.length e.2 else []) := hj
    by_cases hlt : bIdxs.length < e.2.length
    · rw [if_pos hlt] at hj'
      exact List.drop_subset _ _ hj'
    · rw [if_neg hlt] at hj'
      cases hj' 

theorem flatMap_filter_single (m : List (String × List Nat)) (q : Nat → Bool)
    (f : String × List Nat → List Nat) (h : String)
    (hnd : (m.map Prod.fst).Nodup)
    (hq : ∀ e ∈ m, ∀ j ∈ f e, (q j = true ↔ e.1 = h)) :
    (m.flatMap f).filter q =
      (match lookupIdx m h with
       | some is => f (h, is)
       | Option.none => []) := by
  induction m with
  | nil => simp [lookupIdx]
  | cons e rest ih =>
      obtain ⟨k, is⟩ := e
      rw [List.flatMap_cons, List.filter_append]
      simp only [List.map_cons, List.nodup_cons] at hnd
      by_cases hk : k = h
      · subst hk
        have h1 : (f (k, is)).filter q = f (k, is) :=
          List.filter_eq_self.mpr
            (fun j hj => (hq (k, is) (List.mem_cons_self _ _) j hj).mpr rfl)
        have h2 : (rest.flatMap f).filter q = [] := by
          rw [ih hnd.2 (fun e he => hq e (List.mem_cons_of_mem _ he)),
            lookupIdx_eq_none_of_not_mem rest k hnd.1]
        rw [h1, h2, List.append_nil]
        simp [lookupIdx]
      · have h1 : (f (k, is)).filter q = [] :=
          List.filter_eq_nil_iff.mpr (fun j hj hqj =>
            hk ((hq (k, is) (List.mem_cons_self _ _) j hj).mp hqj))
        rw [h1, List.nil_append,
          ih hnd.2 (fun e he => hq e (List.mem_cons_of_mem _ he))]
        simp [lookupIdx, Ne.symm hk, hk]

theorem compareArrayRemoves_filter (av bv : List JValue) (h : String) :
    (compareArrayRemoves (buildMap av) (buildMap bv)).filter
        (fun i => hashValue (av.getD i .null) == h)
      = (hashPositions av h).drop (hashPositions bv h).length := by
  rw [compareArrayRemoves_eq_flatMap,
    flatMap_filter_single (buildMap av) _ (bucketExcess (buildMap bv)) h
      (buildMap_keys_nodup av)
      (by
        intro e he j hj
        have hje := mem_bucketExcess (buildMap bv) e j hj
        obtain ⟨k, is⟩ := e
        have hpos := mem_buildMap_eq av k is he
        subst hpos
        have hhash := (mem_hashPositions av j k hje).2
        show (hashValue (av.getD j .null) == h) = true ↔ k = h
        rw [beq_iff_eq, hhash])]
  rw [buildMap_lookup]
  by_cases hpa : hashPositions av h = []
  · rw [if_pos hpa, hpa]
    simp
  · rw [if_neg hpa]
    show bucketExcess (buildMap bv) (h, hashPositions av h) = _
    unfold bucketExcess
    change (match lookupIdx (buildMap bv) h with
      | Option.none => hashPositions av h
      | some bIdxs =>
          if bIdxs.length < (hashPositions av h).length
          then (hashPositions av h).drop bIdxs.length else []) = _
    rw [buildMap_lookup]
    by_cases hpb : hashPositions bv h = []
    · rw [if_pos hpb, hpb]
      rfl
    · rw [if_neg hpb]
      change (if (hashPositions bv h).length < (hashPositions av h).length
          then (hashPositions av h).drop (hashPositions bv h).length else []) = _
      by_cases hlt : (hashPositions bv h).length < (hashPositions av h).length
      · rw [if_pos hlt]
      · rw [if_neg hlt]
        exact (List.drop_eq_nil_of_le (by omega)).symm

theorem mem_compareArrayRemoves (av bv : List JValue) (j : Nat)
    (hj : j ∈ compareArrayRemoves (buildMap av) (buildMap bv)) : j < av.length := by
  rw [compareArrayRemoves_eq_flatMap, List.mem_flatMap] at hj
  obtain ⟨e, he, hje⟩ := hj
  have hje2 := mem_bucketExcess (buildMap bv) e j hje
  obtain ⟨k, is⟩ := e
  have hpos := mem_buildMap_eq av k is he
  subst hpos
  exact (mem_hashPositions av j k hje2).1

/-- **C4**.  `compareArray` is duplicate-count-aware with ordered
output: the patch is the removes (descending indices, no values)
followed by the adds (ascending indices, carrying `bv[idx]`), and for
every content hash `h` the removed indices are exactly the last
`k − min k m` entries of `original`'s ascending index list for `h`
(`k`/`m` the occurrence counts in `original`/`modified`), and dually the
added indices are the last `m − min k m` entries of `modified`'s index
list for `h`. -/
theorem c4_compare_array_buckets (av bv : List JValue) (p : String) :
    ∃ rs as_,
      compareArray av bv p =
        rs.map (fun idx => NewPatch "remove" (makePathIdx p idx) .none) ++
          as_.map (fun idx => NewPatch "add" (makePathIdx p idx) (.val (bv.getD idx .null))) ∧
      List.Sorted (· ≥ ·) rs ∧
      List.Sorted (· ≤ ·) as_ ∧
      (∀ i ∈ rs, i < av.length) ∧
      (∀ i ∈ as_, i < bv.length) ∧
      (∀ h, List.Perm (rs.filter (fun i => hashValue (av.getD i .null) == h))
          ((hashPositions av h).drop (hashPositions bv h).length)) ∧
      (∀ h, List.Perm (as_.filter (fun i => hashValue (bv.getD i .null) == h))
          ((hashPositions bv h).drop (hashPositions av h).length)) := by
  refine ⟨sortDescending (compareArrayRemoves (buildMap av) (buildMap bv)),
    sortAscending (compareArrayAdds (buildMap av) (buildMap bv)),
    rfl, ?_, ?_, ?_, ?_, ?_, ?_⟩
  · exact List.sorted_insertionSort (fun a b : Nat => b ≤ a) _
  · exact List.sorted_insertionSort (fun a b : Nat => a ≤ b) _
  · intro i hi
    exact mem_compareArrayRemoves av bv i
      ((List.perm_insertionSort (fun a b : Nat => b ≤ a) _).mem_iff.mp hi)
  · intro i hi
    have := (List.perm_insertionSort (fun a b : Nat => a ≤ b) _).mem_iff.mp hi
    rw [compareArrayAdds_eq] at this
    exact mem_compareArrayRemoves bv av i this
  · intro h
    have hperm := (List.perm_insertionSort (fun a b : Nat => b ≤ a)
      (compareArrayRemoves (buildMap av) (buildMap bv))).filter
      (fun i => hashValue (av.getD i .null) == h)
    rw [compareArrayRemoves_filter av bv h] at hperm
    exact hperm
  · intro h
    have hperm := (List.perm_insertionSort (fun a b : Nat => a ≤ b)
      (compareArrayAdds (buildMap av) (buildMap bv))).filter
      (fun i => hashValue (bv.getD i .null) == h)
    rw [compareArrayAdds_eq, compareArrayRemoves_filter bv av h] at hperm
    exact hperm

/-! ### Pointer algebra (towards C6) -/

/-- `makePath` seen as appending one encoded token. -/
def appendToken (path t : String) : String :=
  if path = "" then "/" ++ t
  else if endsWithSlash path then path ++ t
  else path ++ "/" ++ t

/-- The prefix (ending in `/`) onto which `makePath` appends a token. -/
def basePath (path : String) : String :=
  if path = "" then "/"
  else if endsWithSlash path then path
  else path ++ "/"

theorem makePathKey_eq_appendToken (path key : String) :
    makePathKey path key = appendToken path (rfc6901Encode key) := rfl

theorem makePathIdx_eq_appendToken (path : String) (i : Nat) :
    makePathIdx path i = appendToken path (toString i) := rfl

theorem appendToken_eq_basePath (path t : String) :
    appendToken path t = basePath path ++ t := by
  unfold appendToken basePath
  by_cases h0 : path = ""
  · rw [if_pos h0, if_pos h0]
  · rw [if_neg h0, if_neg h0]
    by_cases hs : endsWithSlash path
    · rw [if_pos hs, if_pos hs]
    · rw [if_neg hs, if_neg hs, String.append_assoc]

theorem basePath_getLast (path : String) :
    (basePath path).data.getLast? = some '/' := by
  unfold basePath
  by_cases h0 : path = ""
  · rw [if_pos h0]; rfl
  · rw [if_neg h0]
    by_cases hs : endsWithSlash path
    · rw [if_pos hs]
      exact beq_iff_eq.mp hs
    · rw [if_neg hs, String.data_append]
      have : ("/" : String).data = ['/'] := rfl
      rw [this, List.getLast?_concat]

theorem pathUnder_self_appendToken (p t : String) :
    PathUnder p (appendToken p t) := by
  unfold appendToken
  by_cases h0 : p = ""
  · rw [if_pos h0]
    refine Or.inr (Or.inl ⟨t.data, ?_⟩)
    rw [h0, String.data_append]
    rfl
  · rw [if_neg h0]
    by_cases hs : endsWithSlash p
    · rw [if_pos hs]
      exact Or.inr (Or.inr ⟨beq_iff_eq.mp hs, t.data, String.data_append p t⟩)
    · rw [if_neg hs]
      refine Or.inr (Or.inl ⟨t.data, ?_⟩)
      rw [String.data_append, String.data_append, List.append_assoc]
      rfl

theorem pathUnder_trans_appendToken (p t q : String)
    (hq : PathUnder (appendToken p t) q) : PathUnder p q := by
  unfold appendToken at hq
  by_cases h0 : p = ""
  · rw [if_pos h0] at hq
    subst h0
    have hdata : ∀ r : List Char, ("/" ++ t : String).data ++ r = '/' :: (t.data ++ r) := by
      intro r
      rw [String.data_append]
      rfl
    rcases hq with hq | ⟨r, hr⟩ | ⟨_, r, hr⟩
    · subst hq
      refine Or.inr (Or.inl ⟨t.data, ?_⟩)
      rw [String.data_append]
      rfl
    · refine Or.inr (Or.inl ⟨t.data ++ '/' :: r, ?_⟩)
      rw [hr, hdata]
      rfl
    · refine Or.inr (Or.inl ⟨t.data ++ r, ?_⟩)
      rw [hr, hdata]
      rfl
  · rw [if_neg h0] at hq
    by_cases hs : endsWithSlash p
    · rw [if_pos hs] at hq
      have hlast : p.data.getLast? = some '/' := beq_iff_eq.mp hs
      have hpd : p.data ≠ [] := by
        intro hnil
        rw [hnil] at hlast
        cases hlast
      rcases hq with hq | ⟨r, hr⟩ | ⟨_, r, hr⟩
      · subst hq
        exact Or.inr (Or.inr ⟨hlast, t.data, String.data_append p t⟩)
      · refine Or.inr (Or.inr ⟨hlast, t.data ++ '/' :: r, ?_⟩)
        rw [hr, String.data_append, List.append_assoc]
      · refine Or.inr (Or.inr ⟨hlast, t.data ++ r, ?_⟩)
        rw [hr, String.data_append, List.append_assoc]
    · rw [if_neg hs] at hq
      have hdata : (p ++ "/" ++ t).data = p.data ++ '/' :: t.data := by
        rw [String.data_append, String.data_append, List.append_assoc]
        rfl
      rcases hq with hq | ⟨r, hr⟩ | ⟨_, r, hr⟩
      · subst hq
        exact Or.inr (Or.inl ⟨t.data, hdata⟩)
      · refine Or.inr (Or.inl ⟨t.data ++ '/' :: r, ?_⟩)
        rw [hr, hdata, List.append_assoc]
        rfl
      · refine Or.inr (Or.inl ⟨t.data ++ r, ?_⟩)
        rw [hr, hdata, List.append_assoc]
        rfl

theorem rfc6901EncodeChar_ne_nil (c : Char) : rfc6901EncodeChar c ≠ [] := by
  unfold rfc6901EncodeChar
  by_cases h1 : c = '~'
  · rw [if_pos h1]; simp
  · rw [if_neg h1]
    by_cases h2 : c = '/'
    · rw [if_pos h2]; simp
    · rw [if_neg h2]; simp

theorem slash_not_mem_rfc6901EncodeChar (c : Char) : '/' ∉ rfc6901EncodeChar c := by
  unfold rfc6901EncodeChar
  by_cases h1 : c = '~'
  · rw [if_pos h1]; simp
  · rw [if_neg h1]
    by_cases h2 : c = '/'
    · rw [if_pos h2]; simp
    · rw [if_neg h2]
      rw [List.mem_singleton]
      exact fun hc => h2 hc.symm

theorem slash_not_mem_rfc6901Encode (s : String) : '/' ∉ (rfc6901Encode s).data := by
  intro hmem
  have : (rfc6901Encode s).data = s.data.flatMap rfc6901EncodeChar := rfl
  rw [this, List.mem_flatMap] at hmem
  obtain ⟨c, _, hc⟩ := hmem
  exact slash_not_mem_rfc6901EncodeChar c hc

theorem rfc6901Encode_ne_empty (s : String) (hs : s ≠ "") : rfc6901Encode s ≠ "" := by
  intro hc
  apply hs
  have hdata : s.data.flatMap rfc6901EncodeChar = [] := congrArg String.data hc
  cases hd : s.data with
  | nil => exact String.ext hd
  | cons c rest =>
      rw [hd, List.flatMap_cons] at hdata
      rcases List.append_eq_nil.mp hdata with ⟨h1, _⟩
      exact absurd h1 (rfc6901EncodeChar_ne_nil c)

theorem rfc6901EncodeChar_tilde : rfc6901EncodeChar '~' = ['~', '0'] := rfl

theorem rfc6901EncodeChar_slash : rfc6901EncodeChar '/' = ['~', '1'] := rfl

theorem rfc6901EncodeChar_other (c : Char) (h1 : c ≠ '~') (h2 : c ≠ '/') :
    rfc6901EncodeChar c = [c] := by
  unfold rfc6901EncodeChar
  rw [if_neg h1, if_neg h2]

theorem encodeChars_inj : ∀ l1 l2 : List Char,
    l1.flatMap rfc6901EncodeChar = l2.flatMap rfc6901EncodeChar → l1 = l2 := by
  intro l1
  induction l1 with
  | nil =>
      intro l2 h
      cases l2 with
      | nil => rfl
      | cons c rest =>
          rw [List.flatMap_nil, List.flatMap_cons] at h
          rcases List.append_eq_nil.mp h.symm with ⟨h1, _⟩
          exact absurd h1 (rfc6901EncodeChar_ne_nil c)
  | cons c1 r1 ih =>
      intro l2 h
      cases l2 with
      | nil =>
          rw [List.flatMap_cons, List.flatMap_nil] at h
          rcases List.append_eq_nil.mp h with ⟨h1, _⟩
          exact absurd h1 (rfc6901EncodeChar_ne_nil c1)
      | cons c2 r2 =>
          rw [List.flatMap_cons, List.flatMap_cons] at h
          by_cases hc1t : c1 = '~' <;> by_cases hc2t : c2 = '~'
          · subst hc1t; subst hc2t
            rw [ih r2 (List.append_cancel_left h)]
          · subst hc1t
            rw [rfc6901EncodeChar_tilde] at h
            by_cases hc2s : c2 = '/'
            · subst hc2s
              rw [rfc6901EncodeChar_slash] at h
              simp only [List.cons_append, List.cons.injEq] at h
              exact absurd h.2.1 (by decide)
            · rw [rfc6901EncodeChar_other c2 hc2t hc2s] at h
              simp only [List.cons_append, List.cons.injEq] at h
              exact absurd h.1.symm hc2t
          · subst hc2t
            rw [rfc6901EncodeChar_tilde] at h
            by_cases hc1s : c1 = '/'
            · subst hc1s
              rw [rfc6901EncodeChar_slash] at h
              simp only [List.cons_append, List.cons.injEq] at h
              exact absurd h.2.1 (by decide)
            · rw [rfc6901EncodeChar_other c1 hc1t hc1s] at h
              simp only [List.cons_append, List.cons.injEq] at h
              exact absurd h.1 hc1t
          · by_cases hc1s : c1 = '/' <;> by_cases hc2s : c2 = '/'
            · subst hc1s; subst hc2s
              rw [ih r2 (List.append_cancel_left h)]
            · subst hc1s
              rw [rfc6901EncodeChar_slash, rfc6901EncodeChar_other c2 hc2t hc2s] at h
              simp only [List.cons_append, List.cons.injEq] at h
              exact absurd h.1.symm hc2t
            · subst hc2s
              rw [rfc6901EncodeChar_slash, rfc6901EncodeChar_other c1 hc1t hc1s] at h
              simp only [List.cons_append, List.cons.injEq] at h
              exact absurd h.1 hc1t
            · rw [rfc6901EncodeChar_other c1 hc1t hc1s,
                rfc6901EncodeChar_other c2 hc2t hc2s] at h
              simp only [List.cons_append, List.cons.injEq] at h
              rw [h.1, ih r2 h.2]

theorem rfc6901Encode_inj (s1 s2 : String)
    (h : rfc6901Encode s1 = rfc6901Encode s2) : s1 = s2 := by
  have hd : s1.data.flatMap rfc6901EncodeChar = s2.data.flatMap rfc6901EncodeChar :=
    congrArg String.data h
  exact String.ext (encodeChars_inj s1.data s2.data hd)

theorem slashSplit : ∀ (u : List Char) (v : List Char) (r r' : List Char),
    '/' ∉ u → '/' ∉ v → u ++ '/' :: r = v ++ '/' :: r' → u = v := by
  intro u
  induction u with
  | nil =>
      intro v r r' _ hv h
      cases v with
      | nil => rfl
      | cons c vrest =>
          rw [List.nil_append, List.cons_append, List.cons.injEq] at h
          exact absurd (h.1 ▸ List.mem_cons_self c vrest) hv
  | cons c urest ih =>
      intro v r r' hu hv h
      cases v with
      | nil =>
          rw [List.nil_append, List.cons_append, List.cons.injEq] at h
          exact absurd (h.1 ▸ List.mem_cons_self c urest) hu
      | cons c2 vrest =>
          rw [List.cons_append, List.cons_append, List.cons.injEq] at h
          rw [h.1, ih vrest r r' (fun hm => hu (List.mem_cons_of_mem c hm))
            (fun hm => hv (List.mem_cons_of_mem c2 hm)) h.2]

theorem strictUnder_iff (p q : String) :
    strictUnder p q = true ↔ ∃ r : List Char, q.data = p.data ++ '/' :: r := by
  unfold strictUnder
  rw [List.isPrefixOf_iff_prefix]
  constructor
  · rintro ⟨t, ht⟩
    exact ⟨t, by rw [← ht, List.append_assoc]; rfl⟩
  · rintro ⟨r, hr⟩
    exact ⟨r, by rw [hr, List.append_assoc]; rfl⟩

theorem strictUnder_self (p : String) : strictUnder p p = false := by
  rw [Bool.eq_false_iff]
  intro hc
  obtain ⟨r, hr⟩ := (strictUnder_iff p p).mp hc
  have := congrArg List.length hr
  simp at this

/-- The sibling-separation fact: a pointer under `B ++ t'` is neither
equal to nor strictly under `B ++ t` when the slash-free tokens `t ≠ t'`
differ and `t'` is nonempty. -/
theorem pathUnder_separation (B t t' q : String)
    (ht : t ≠ t') (htn : '/' ∉ t.data) (htn' : '/' ∉ t'.data) (hne' : t' ≠ "")
    (hq : PathUnder (B ++ t') q) :
    q ≠ B ++ t ∧ strictUnder (B ++ t) q = false := by
  have hdata' : (B ++ t').data = B.data ++ t'.data := String.data_append B t'
  have hdata : (B ++ t).data = B.data ++ t.data := String.data_append B t
  rcases hq with hq | ⟨r, hr⟩ | ⟨hlast, r, hr⟩
  · subst hq
    constructor
    · intro hc
      have h2 := congrArg String.data hc
      rw [hdata', hdata] at h2
      exact ht (String.ext (List.append_cancel_left h2)).symm
    · rw [Bool.eq_false_iff]
      intro hc
      obtain ⟨r, hr⟩ := (strictUnder_iff _ _).mp hc
      rw [hdata', hdata, List.append_assoc] at hr
      have hcan := List.append_cancel_left hr
      apply htn'
      rw [hcan]
      simp
  · constructor
    · intro hc
      subst hc
      rw [hdata, hdata', List.append_assoc] at hr
      have := List.append_cancel_left hr
      apply htn
      rw [this]
      simp
    · rw [Bool.eq_false_iff]
      intro hc
      obtain ⟨r2, hr2⟩ := (strictUnder_iff _ _).mp hc
      have hcomb : B.data ++ (t.data ++ '/' :: r2) = B.data ++ (t'.data ++ '/' :: r) := by
        rw [← List.append_assoc, ← hdata, ← hr2, hr, hdata', List.append_assoc]
      have hcan := List.append_cancel_left hcomb
      exact ht (String.ext (slashSplit t.data t'.data r2 r htn htn' hcan))
  · exfalso
    rw [hdata'] at hlast
    have htd : t'.data ≠ [] := by
      intro hnil
      exact hne' (String.ext hnil)
    rw [List.getLast?_append_of_ne_nil _ htd] at hlast
    exact htn' (List.mem_of_mem_getLast? hlast)

theorem compareArray_mem_path (at_ bt : List JValue) (p : String) :
    ∀ op ∈ compareArray at_ bt p, ∃ i, op.path = makePathIdx p i := by
  intro op hop
  unfold compareArray at hop
  rw [List.mem_append] at hop
  rcases hop with hop | hop <;> rw [List.mem_map] at hop <;>
    obtain ⟨i, _, rfl⟩ := hop <;> exact ⟨i, rfl⟩

theorem removeOps_mem (a b : JObj) (path : String) :
    ∀ op ∈ removeOps a b path, ∃ key, key ∈ a.map Prod.fst ∧
      lookupKey b key = none ∧ op.path = makePathKey path key := by
  intro op hop
  unfold removeOps at hop
  rw [List.mem_map] at hop
  obtain ⟨kv, hkv, rfl⟩ := hop
  rw [List.mem_filter] at hkv
  exact ⟨kv.1, List.mem_map.mpr ⟨kv, hkv.1, rfl⟩,
    Option.isNone_iff_eq_none.mp hkv.2, rfl⟩

/-- Every operation emitted by the recursive diff lies at or below the
pointer prefix it was called with. -/
theorem diff_shape : ∀ n : Nat,
    (∀ a b path patch res, diffF n a b path patch = .ok res →
      ∃ new, res = patch ++ new ∧ ∀ op ∈ new, PathUnder path op.path) ∧
    (∀ a bs path patch res, diffBF n a bs path patch = .ok res →
      ∃ new, res = patch ++ new ∧ ∀ op ∈ new, PathUnder path op.path) ∧
    (∀ av bv p patch res, handleValuesF n av bv p patch = .ok res →
      ∃ new, res = patch ++ new ∧ ∀ op ∈ new, PathUnder p op.path) ∧
    (∀ ats bts p i patch res, handleArrF n ats bts p i patch = .ok res →
      ∃ new, res = patch ++ new ∧ ∀ op ∈ new, PathUnder p op.path) := by
  intro n
  induction n with
  | zero =>
      refine ⟨?_, ?_, ?_, ?_⟩
      · intro a b path patch res h
        cases h
      · intro a bs path patch res h
        cases h
      · intro av bv p patch res h
        cases h
      · intro ats bts p i patch res h
        cases h
  | succ n ih =>
      obtain ⟨ihDiff, ihDiffB, ihHV, ihArr⟩ := ih
      refine ⟨?_, ?_, ?_, ?_⟩
      · intro a b path patch res h
        simp only [diffF] at h
        cases hd : diffBF n a b path patch with
        | error e =>
            simp only [hd] at h
            cases h
        | ok patch' =>
            simp only [hd] at h
            injection h with h
            obtain ⟨new1, hnew1, hu1⟩ := ihDiffB a b path patch patch' hd
            refine ⟨new1 ++ removeOps a b path, ?_, ?_⟩
            · rw [← h, hnew1, List.append_assoc]
            · intro op hop
              rcases List.mem_append.mp hop with hop | hop
              · exact hu1 op hop
              · obtain ⟨key, _, _, hpath⟩ := removeOps_mem a b path op hop
                rw [hpath, makePathKey_eq_appendToken]
                exact pathUnder_self_appendToken path (rfc6901Encode key)
      · intro a bs path patch res h
        cases bs with
        | nil =>
            simp only [diffBF] at h
            injection h with h
            exact ⟨[], by rw [← h, List.append_nil], by simp⟩
        | cons e rest =>
            obtain ⟨key, bv⟩ := e
            simp only [diffBF] at h
            cases hl : lookupKey a key with
            | none =>
                simp only [hl] at h
                obtain ⟨new2, hnew2, hu2⟩ := ihDiffB a rest path _ res h
                refine ⟨NewPatch "add" (makePathKey path key) (.val bv) :: new2, ?_, ?_⟩
                · rw [hnew2, List.append_assoc]
                  rfl
                · intro op hop
                  rcases List.mem_cons.mp hop with hop | hop
                  · subst hop
                    rw [makePathKey_eq_appendToken]
                    exact pathUnder_self_appendToken path (rfc6901Encode key)
                  · exact hu2 op hop
            | some av =>
                simp only [hl] at h
                by_cases hst : sameType av bv = false
                · rw [if_pos hst] at h
                  obtain ⟨new2, hnew2, hu2⟩ := ihDiffB a rest path _ res h
                  refine ⟨NewPatch "replace" (makePathKey path key) (.val bv) :: new2, ?_, ?_⟩
                  · rw [hnew2, List.append_assoc]
                    rfl
                  · intro op hop
                    rcases List.mem_cons.mp hop with hop | hop
                    · subst hop
                      rw [makePathKey_eq_appendToken]
                      exact pathUnder_self_appendToken path (rfc6901Encode key)
                    · exact hu2 op hop
                · rw [if_neg hst] at h
                  cases hh : handleValuesF n av bv (makePathKey path key) patch with
                  | error e =>
                      simp only [hh] at h
                      cases h
                  | ok patch' =>
                      simp only [hh] at h
                      obtain ⟨newH, hnewH, huH⟩ := ihHV av bv _ patch patch' hh
                      obtain ⟨new2, hnew2, hu2⟩ := ihDiffB a rest path patch' res h
                      refine ⟨newH ++ new2, ?_, ?_⟩
                      · rw [hnew2, hnewH, List.append_assoc]
                      · intro op hop
                        rcases List.mem_append.mp hop with hop | hop
                        · exact pathUnder_trans_appendToken path (rfc6901Encode key) op.path
                            (makePathKey_eq_appendToken path key ▸ huH op hop)
                        · exact hu2 op hop
      · intro av bv p patch res h
        cases av with
        | obj at_ =>
            cases bv with
            | obj bt =>
                simp only [handleValuesF] at h
                exact ihDiff at_ bt p patch res h
            | null => cases h
            | bool b => cases h
            | num t => cases h
            | str s => cases h
            | arr xs => cases h
        | str s =>
            simp only [handleValuesF] at h
            injection h with h
            by_cases hm : matchesValue (.str s) bv = false
            · rw [if_pos hm] at h
              refine ⟨[NewPatch "replace" p (.val bv)], h.symm, ?_⟩
              intro op hop
              rw [List.mem_singleton] at hop
              subst hop
              exact Or.inl rfl
            · rw [if_neg hm] at h
              exact ⟨[], by rw [← h, List.append_nil], by simp⟩
        | num t =>
            simp only [handleValuesF] at h
            injection h with h
            by_cases hm : matchesValue (.num t) bv = false
            · rw [if_pos hm] at h
              refine ⟨[NewPatch "replace" p (.val bv)], h.symm, ?_⟩
              intro op hop
              rw [List.mem_singleton] at hop
              subst hop
              exact Or.inl rfl
            · rw [if_neg hm] at h
              exact ⟨[], by rw [← h, List.append_nil], by simp⟩
        | bool b =>
            simp only [handleValuesF] at h
            injection h with h
            by_cases hm : matchesValue (.bool b) bv = false
            · rw [if_pos hm] at h
              refine ⟨[NewPatch "replace" p (.val bv)], h.symm, ?_⟩
              intro op hop
              rw [List.mem_singleton] at hop
              subst hop
              exact Or.inl rfl
            · rw [if_neg hm] at h
              exact ⟨[], by rw [← h, List.append_nil], by simp⟩
        | arr at_ =>
            cases bv with
            | arr bt =>
                simp only [handleValuesF] at h
                by_cases hlen : at_.length ≠ bt.length
                · rw [if_pos hlen] at h
                  injection h with h
                  refine ⟨compareArray at_ bt p, h.symm, ?_⟩
                  intro op hop
                  obtain ⟨i, hpath⟩ := compareArray_mem_path at_ bt p op hop
                  rw [hpath, makePathIdx_eq_appendToken]
                  exact pathUnder_self_appendToken p (toString i)
                · rw [if_neg hlen] at h
                  exact ihArr at_ bt p 0 patch res h
            | null =>
                simp only [handleValuesF] at h
                injection h with h
                refine ⟨[NewPatch "replace" p (.val .null)], h.symm, ?_⟩
                intro op hop
                rw [List.mem_singleton] at hop
                subst hop
                exact Or.inl rfl
            | bool b =>
                simp only [handleValuesF] at h
                injection h with h
                refine ⟨[NewPatch "replace" p (.val (.bool b))], h.symm, ?_⟩
                intro op hop
                rw [List.mem_singleton] at hop
                subst hop
                exact Or.inl rfl
            | num t =>
                simp only [handleValuesF] at h
                injection h with h
                refine ⟨[NewPatch "replace" p (.val (.num t))], h.symm, ?_⟩
                intro op hop
                rw [List.mem_singleton] at hop
                subst hop
                exact Or.inl rfl
            | str s =>
                simp only [handleValuesF] at h
                injection h with h
                refine ⟨[NewPatch "replace" p (.val (.str s))], h.symm, ?_⟩
                intro op hop
                rw [List.mem_singleton] at hop
                subst hop
                exact Or.inl rfl
            | obj bt =>
                simp only [handleValuesF] at h
                injection h with h
                refine ⟨[NewPatch "replace" p (.val (.obj bt))], h.symm, ?_⟩
                intro op hop
                rw [List.mem_singleton] at hop
                subst hop
                exact Or.inl rfl
        | null =>
            cases bv with
            | null =>
                simp only [handleValuesF] at h
                injection h with h
                exact ⟨[], by rw [← h, List.append_nil], by simp⟩
            | bool b =>
                simp only [handleValuesF] at h
                injection h with h
                refine ⟨[NewPatch "add" p (.val (.bool b))], h.symm, ?_⟩
                intro op hop
                rw [List.mem_singleton] at hop
                subst hop
                exact Or.inl rfl
            | num t =>
                simp only [handleValuesF] at h
                injection h with h
                refine ⟨[NewPatch "add" p (.val (.num t))], h.symm, ?_⟩
                intro op hop
                rw [List.mem_singleton] at hop
                subst hop
                exact Or.inl rfl
            | str s =>
                simp only [handleValuesF] at h
                injection h with h
                refine ⟨[NewPatch "add" p (.val (.str s))], h.symm, ?_⟩
                intro op hop
                rw [List.mem_singleton] at hop
                subst hop
                exact Or.inl rfl
            | arr xs =>
                simp only [handleValuesF] at h
                injection h with h
                refine ⟨[NewPatch "add" p (.val (.arr xs))], h.symm, ?_⟩
                intro op hop
                rw [List.mem_singleton] at hop
                subst hop
                exact Or.inl rfl
            | obj bt =>
                simp only [handleValuesF] at h
                injection h with h
                refine ⟨[NewPatch "add" p (.val (.obj bt))], h.symm, ?_⟩
                intro op hop
                rw [List.mem_singleton] at hop
                subst hop
                exact Or.inl rfl
      · intro ats bts p i patch res h
        cases ats with
        | nil =>
            simp only [handleArrF] at h
            injection h with h
            exact ⟨[], by rw [← h, List.append_nil], by simp⟩
        | cons av arest =>
            cases bts with
            | nil =>
                simp only [handleArrF] at h
                injection h with h
                exact ⟨[], by rw [← h, List.append_nil], by simp⟩
            | cons bv brest =>
                simp only [handleArrF] at h
                cases hh : handleValuesF n av bv (makePathIdx p i) patch with
                | error e =>
                    simp only [hh] at h
                    cases h
                | ok patch' =>
                    simp only [hh] at h
                    obtain ⟨newH, hnewH, huH⟩ := ihHV av bv _ patch patch' hh
                    obtain ⟨new2, hnew2, hu2⟩ := ihArr arest brest p (i + 1) patch' res h
                    refine ⟨newH ++ new2, ?_, ?_⟩
                    · rw [hnew2, hnewH, List.append_assoc]
                    · intro op hop
                      rcases List.mem_append.mp hop with hop | hop
                      · exact pathUnder_trans_appendToken p (toString i) op.path
                          (makePathIdx_eq_appendToken p i ▸ huH op hop)
                      · exact hu2 op hop

/-- Operations produced for a sibling key (different from `k`, not the
empty key) never land at or strictly under `k`'s path. -/
theorem sibling_separation (path k key : String) (hk : key ≠ k) (hke : key ≠ "")
    (q : String) (hq : PathUnder (makePathKey path key) q) :
    q ≠ makePathKey path k ∧ strictUnder (makePathKey path k) q = false := by
  rw [makePathKey_eq_appendToken, appendToken_eq_basePath] at hq
  rw [makePathKey_eq_appendToken, appendToken_eq_basePath]
  exact pathUnder_separation (basePath path) (rfc6901Encode k) (rfc6901Encode key) q
    (fun hc => hk (rfc6901Encode_inj _ _ hc).symm)
    (slash_not_mem_rfc6901Encode k) (slash_not_mem_rfc6901Encode key)
    (rfc6901Encode_ne_empty key hke) hq

/-- The `b`-loop over a span of sibling entries only (no entry keyed
`k`, no empty key) contributes no operation at or strictly under `k`'s
path. -/
theorem diffBF_siblings (k path : String) :
    ∀ (bs : JObj) (n : Nat) (a : JObj) (patch res : List Operation),
    diffBF n a bs path patch = .ok res →
    (∀ e ∈ bs, e.1 ≠ k ∧ e.1 ≠ "") →
    ∃ new, res = patch ++ new ∧
      ∀ op ∈ new, op.path ≠ makePathKey path k ∧
        strictUnder (makePathKey path k) op.path = false := by
  intro bs
  induction bs with
  | nil =>
      intro n a patch res h _
      cases n with
      | zero => cases h
      | succ n =>
          simp only [diffBF] at h
          injection h with h
          exact ⟨[], by rw [← h, List.append_nil], by simp⟩
  | cons e rest ih =>
      intro n a patch res h hsib
      cases n with
      | zero => cases h
      | succ n =>
          obtain ⟨key, bv⟩ := e
          have hkey := hsib (key, bv) (List.mem_cons_self _ _)
          have hrest := fun e he => hsib e (List.mem_cons_of_mem _ he)
          simp only [diffBF] at h
          cases hl : lookupKey a key with
          | none =>
              simp only [hl] at h
              obtain ⟨new2, hnew2, hu2⟩ := ih n a _ res h hrest
              refine ⟨NewPatch "add" (makePathKey path key) (.val bv) :: new2, ?_, ?_⟩
              · rw [hnew2, List.append_assoc]
                rfl
              · intro op hop
                rcases List.mem_cons.mp hop with hop | hop
                · subst hop
                  exact sibling_separation path k key hkey.1 hkey.2 _ (Or.inl rfl)
                · exact hu2 op hop
          | some av =>
              simp only [hl] at h
              by_cases hst : sameType av bv = false
              · rw [if_pos hst] at h
                obtain ⟨new2, hnew2, hu2⟩ := ih n a _ res h hrest
                refine ⟨NewPatch "replace" (makePathKey path key) (.val bv) :: new2, ?_, ?_⟩
                · rw [hnew2, List.append_assoc]
                  rfl
                · intro op hop
                  rcases List.mem_cons.mp hop with hop | hop
                  · subst hop
                    exact sibling_separation path k key hkey.1 hkey.2 _ (Or.inl rfl)
                  · exact hu2 op hop
              · rw [if_neg hst] at h
                cases hh : handleValuesF n av bv (makePathKey path key) patch with
                | error e =>
                    simp only [hh] at h
                    cases h
                | ok patch' =>
                    simp only [hh] at h
                    obtain ⟨newH, hnewH, huH⟩ := (diff_shape n).2.2.1 av bv _ patch patch' hh
                    obtain ⟨new2, hnew2, hu2⟩ := ih n a patch' res h hrest
                    refine ⟨newH ++ new2, ?_, ?_⟩
                    · rw [hnew2, hnewH, List.append_assoc]
                    · intro op hop
                      rcases List.mem_append.mp hop with hop | hop
                      · exact sibling_separation path k key hkey.1 hkey.2 _ (huH op hop)
                      · exact hu2 op hop

/-- The `b`-loop over `l1 ++ (k, vb) :: l2`, where `l1`/`l2` hold only
siblings, contributes exactly one operation at `k`'s path — the
`replace` carrying `vb` — and none strictly under it. -/
theorem diffBF_with_key (k path : String) (vb va : JValue)
    (hty : sameType va vb = false) :
    ∀ (l1 l2 : JObj) (n : Nat) (a : JObj) (patch res : List Operation),
    diffBF n a (l1 ++ (k, vb) :: l2) path patch = .ok res →
    lookupKey a k = some va →
    (∀ e ∈ l1, e.1 ≠ k ∧ e.1 ≠ "") →
    (∀ e ∈ l2, e.1 ≠ k ∧ e.1 ≠ "") →
    ∃ new, res = patch ++ new ∧
      new.filter (fun op => op.path == makePathKey path k)
        = [NewPatch "replace" (makePathKey path k) (.val vb)] ∧
      new.filter (fun op => strictUnder (makePathKey path k) op.path) = [] := by
  intro l1
  induction l1 with
  | nil =>
      intro l2 n a patch res h hla _ hsib2
      cases n with
      | zero => cases h
      | succ n =>
          rw [List.nil_append] at h
          simp only [diffBF, hla] at h
          rw [if_pos hty] at h
          obtain ⟨new2, hnew2, hu2⟩ := diffBF_siblings k path l2 n a _ res h hsib2
          refine ⟨NewPatch "replace" (makePathKey path k) (.val vb) :: new2, ?_, ?_, ?_⟩
          · rw [hnew2, List.append_assoc]
            rfl
          · rw [List.filter_cons_of_pos (by simp [NewPatch]),
              List.filter_eq_nil_iff.mpr (fun op hop hc =>
                (hu2 op hop).1 (beq_iff_eq.mp hc))]
          · rw [List.filter_cons_of_neg (by simp [NewPatch, strictUnder_self]),
              List.filter_eq_nil_iff.mpr (fun op hop hc =>
                by rw [(hu2 op hop).2] at hc; cases hc)]
  | cons e l1' ih =>
      intro l2 n a patch res h hla hsib1 hsib2
      cases n with
      | zero => cases h
      | succ n =>
          obtain ⟨key, bv⟩ := e
          have hkey := hsib1 (key, bv) (List.mem_cons_self _ _)
          have hrest1 := fun e he => hsib1 e (List.mem_cons_of_mem _ he)
          rw [List.cons_append] at h
          simp only [diffBF] at h
          cases hl : lookupKey a key with
          | none =>
              simp only [hl] at h
              obtain ⟨new2, hnew2, hf1, hf2⟩ := ih l2 n a _ res h hla hrest1 hsib2
              have hsep := sibling_separation path k key hkey.1 hkey.2 _
                (Or.inl rfl : PathUnder (makePathKey path key) (makePathKey path key))
              refine ⟨NewPatch "add" (makePathKey path key) (.val bv) :: new2, ?_, ?_, ?_⟩
              · rw [hnew2, List.append_assoc]
                rfl
              · rw [List.filter_cons_of_neg (by simp [NewPatch, hsep.1]), hf1]
              · rw [List.filter_cons_of_neg (by simp [NewPatch, hsep.2]), hf2]
          | some av =>
              simp only [hl] at h
              by_cases hst : sameType av bv = false
              · rw [if_pos hst] at h
                obtain ⟨new2, hnew2, hf1, hf2⟩ := ih l2 n a _ res h hla hrest1 hsib2
                have hsep := sibling_separation path k key hkey.1 hkey.2 _
                  (Or.inl rfl : PathUnder (makePathKey path key) (makePathKey path key))
                refine ⟨NewPatch "replace" (makePathKey path key) (.val bv) :: new2, ?_, ?_, ?_⟩
                · rw [hnew2, List.append_assoc]
                  rfl
                · rw [List.filter_cons_of_neg (by simp [NewPatch, hsep.1]), hf1]
                · rw [List.filter_cons_of_neg (by simp [NewPatch, hsep.2]), hf2]
              · rw [if_neg hst] at h
                cases hh : handleValuesF n av bv (makePathKey path key) patch with
                | error e =>
                    simp only [hh] at h
                    cases h
                | ok patch' =>
                    simp only [hh] at h
                    obtain ⟨newH, hnewH, huH⟩ := (diff_shape n).2.2.1 av bv _ patch patch' hh
                    obtain ⟨new2, hnew2, hf1, hf2⟩ := ih l2 n a patch' res h hla hrest1 hsib2
                    refine ⟨newH ++ new2, ?_, ?_, ?_⟩
                    · rw [hnew2, hnewH, List.append_assoc]
                    · rw [List.filter_append,
                        List.filter_eq_nil_iff.mpr (fun op hop hc =>
                          (sibling_separation path k key hkey.1 hkey.2 _ (huH op hop)).1
                            (beq_iff_eq.mp hc)), hf1, List.nil_append]
                    · rw [List.filter_append,
                        List.filter_eq_nil_iff.mpr (fun op hop hc => by
                          rw [(sibling_separation path k key hkey.1 hkey.2 _
                            (huH op hop)).2] at hc
                          cases hc), hf2, List.nil_append]

/-- Splitting an association list at the entry a successful lookup
finds: everything before it has a different key. -/
theorem lookupKey_split (b : JObj) (k : String) (vb : JValue)
    (h : lookupKey b k = some vb) :
    ∃ l1 l2, b = l1 ++ (k, vb) :: l2 ∧ ∀ e ∈ l1, e.1 ≠ k := by
  induction b with
  | nil => cases h
  | cons e rest ih =>
      obtain ⟨key, v⟩ := e
      by_cases hk : key = k
      · subst hk
        simp only [lookupKey, if_pos rfl] at h
        injection h with h
        subst h
        exact ⟨[], rest, rfl, by simp⟩
      · simp only [lookupKey, if_neg hk] at h
        obtain ⟨l1, l2, hb, hl1⟩ := ih h
        refine ⟨(key, v) :: l1, l2, by rw [hb]; rfl, ?_⟩
        intro e he
        rcases List.mem_cons.mp he with he | he
        · subst he
          exact hk
        · exact hl1 e he

/-- **C6** (amended).  For two objects sharing key `k` with values of
different variants, and provided neither object uses the empty string as
a key (which lets a sibling subtree collide with `k`'s pointer), the
recursive diff emits exactly one operation at `k`'s path — a `replace`
carrying `b`'s value — and no operation strictly below it (no
recursion into either value), whatever fuel the run is given. -/
theorem c6_type_change_single_replace (a b : JObj) (path k : String)
    (va vb : JValue)
    (hndb : (b.map Prod.fst).Nodup)
    (hea : "" ∉ a.map Prod.fst) (heb : "" ∉ b.map Prod.fst)
    (hla : lookupKey a k = some va) (hlb : lookupKey b k = some vb)
    (hty : sameType va vb = false) :
    ∀ (n : Nat) (ops : List Operation), diffF n a b path [] = .ok ops →
      ops.filter (fun op => op.path == makePathKey path k)
        = [NewPatch "replace" (makePathKey path k) (.val vb)] ∧
      ops.filter (fun op => strictUnder (makePathKey path k) op.path) = [] := by
  intro n ops h
  cases n with
  | zero => cases h
  | succ n =>
      simp only [diffF] at h
      cases hd : diffBF n a b path [] with
      | error e =>
          simp only [hd] at h
          cases h
      | ok patch' =>
          simp only [hd] at h
          injection h with h
          obtain ⟨l1, l2, hb, hl1k⟩ := lookupKey_split b k vb hlb
          have hkeys : b.map Prod.fst = l1.map Prod.fst ++ k :: l2.map Prod.fst := by
            rw [hb, List.map_append, List.map_cons]
          have hl2k : ∀ e ∈ l2, e.1 ≠ k := by
            intro e he hc
            rw [hkeys] at hndb
            have := (List.nodup_append.mp hndb).2.1
            rw [List.nodup_cons] at this
            exact this.1 (hc ▸ List.mem_map.mpr ⟨e, he, rfl⟩)
          have hsib1 : ∀ e ∈ l1, e.1 ≠ k ∧ e.1 ≠ "" := by
            intro e he
            refine ⟨hl1k e he, fun hc => heb ?_⟩
            rw [hkeys]
            exact List.mem_append_left _ (hc ▸ List.mem_map.mpr ⟨e, he, rfl⟩)
          have hsib2 : ∀ e ∈ l2, e.1 ≠ k ∧ e.1 ≠ "" := by
            intro e he
            refine ⟨hl2k e he, fun hc => heb ?_⟩
            rw [hkeys]
            refine List.mem_append_right _ (List.mem_cons_of_mem _ ?_)
            exact hc ▸ List.mem_map.mpr ⟨e, he, rfl⟩
          rw [hb] at hd
          obtain ⟨new, hnew, hf1, hf2⟩ :=
            diffBF_with_key k path vb va hty l1 l2 n a [] patch' hd hla hsib1 hsib2
          rw [List.nil_append] at hnew
          subst hnew
          have hrem : ∀ op ∈ removeOps a b path,
              op.path ≠ makePathKey path k ∧
                strictUnder (makePathKey path k) op.path = false := by
            intro op hop
            obtain ⟨key, hkeya, hkeyb, hpath⟩ := removeOps_mem a b path op hop
            have hkk : key ≠ k := by
              intro hc
              rw [hc, hlb] at hkeyb
              cases hkeyb
            have hke : key ≠ "" := fun hc => hea (hc ▸ hkeya)
            have := sibling_separation path k key hkk hke (makePathKey path key)
              (Or.inl rfl)
            exact ⟨hpath ▸ this.1, hpath ▸ this.2⟩
          constructor
          · rw [← h, List.filter_append, hf1,
              List.filter_eq_nil_iff.mpr (fun op hop hc =>
                (hrem op hop).1 (beq_iff_eq.mp hc)), List.append_nil]
          · rw [← h, List.filter_append, hf2,
              List.filter_eq_nil_iff.mpr (fun op hop hc => by
                rw [(hrem op hop).2] at hc
                cases hc), List.append_nil]

/-- Witness for `c6_type_change_single_replace`: diffing
`{"a":{"x":1}}` against `{"a":"text"}` puts exactly one operation at
`/a` — `replace` with `"text"` — and none below it. -/
theorem c6_type_change_witness :
    ([NewPatch "replace" "/a" (.val (.str "text"))].filter
        (fun op => op.path == makePathKey "" "a"))
      = [NewPatch "replace" (makePathKey "" "a") (.val (.str "text"))] ∧
    ([NewPatch "replace" "/a" (.val (.str "text"))].filter
        (fun op => strictUnder (makePathKey "" "a") op.path)) = [] :=
  c6_type_change_single_replace
    [("a", .obj [("x", .num "1")])] [("a", .str "text")] "" "a"
    (.obj [("x", .num "1")]) (.str "text")
    (by simp) (by simp) (by simp) rfl rfl rfl
    20 [NewPatch "replace" "/a" (.val (.str "text"))] rfl

/-- **C6** (counterexample).  The objects `{"x":5,"":{"x":1}}` and
`{"x":"s","":{"x":2}}` share key `x` with different variants
(number vs string), yet the diff emits two operations at pointer `/x`:
the type-change replace, and a second replace produced while recursing
into the empty-string key's subtree, whose pointer collides with `/x`. -/
theorem c6_counterexample :
    lookupKey [("x", JValue.num "5"), ("", JValue.obj [("x", JValue.num "1")])] "x"
      = some (.num "5") ∧
    lookupKey [("x", JValue.str "s"), ("", JValue.obj [("x", JValue.num "2")])] "x"
      = some (.str "s") ∧
    sameType (.num "5") (.str "s") = false ∧
    diffF 20 [("x", .num "5"), ("", .obj [("x", .num "1")])]
        [("x", .str "s"), ("", .obj [("x", .num "2")])] "" []
      = .ok [NewPatch "replace" "/x" (.val (.str "s")),
             NewPatch "replace" "/x" (.val (.num "2"))] ∧
    ([NewPatch "replace" "/x" (OpVal.val (.str "s")),
      NewPatch "replace" "/x" (OpVal.val (.num "2"))].filter
        (fun op => op.path == makePathKey "" "x")).length = 2 :=
  ⟨rfl, rfl, rfl, rfl, rfl⟩

end Jsonpatch
